import Mathlib

/-!
A verification development for the leaderboard-resolution core of the
Type-D Wireless Display firmware (`src/insignia.cpp`).  Strings are
modelled as `List Char` (the Arduino `String` type holds a byte array;
all characters the code inspects are ASCII).  Machine timestamps are
modelled as `Nat`/`Int`; where the C code narrows to `uint32_t` the
model takes the value modulo `2 ^ 32` explicitly.  The Arduino/SPIFFS
environment (network fetches, JSON deserialisation outcomes, filesystem
mount state, random numbers, clock readings) enters the model as
explicit parameters.
-/

namespace Insignia

/-- Strings, as lists of characters. -/
abbrev Str := List Char

/-- Coerce a Lean string literal to the model string type. -/
def str (s : String) : Str := s.toList

/-- ASCII lower-casing of one character (`String::toLowerCase`, per byte). -/
def lcChar (c : Char) : Char :=
  if 'A' ≤ c ∧ c ≤ 'Z' then Char.ofNat (c.toNat + 32) else c

/-- `lc` from the source: lower-case a copy of the string. -/
def lc (s : Str) : Str := s.map lcChar

/-- Characters the normaliser keeps: lower-case ASCII letters and digits. -/
def isLowerAlnum (c : Char) : Bool :=
  ('a' ≤ c ∧ c ≤ 'z') ∨ ('0' ≤ c ∧ c ≤ '9')

/-- Decimal digit character. -/
def digitChar (d : Nat) : Char := Char.ofNat (48 + d)

/-- Decimal rendering of a natural number, fuel-driven so it reduces. -/
def natToStrGo : Nat → Nat → Str
  | 0, _ => []
  | fuel + 1, m =>
    if m < 10 then [digitChar m]
    else natToStrGo fuel (m / 10) ++ [digitChar (m % 10)]

/-- Decimal rendering of a natural number (`String(int)` for `int ≥ 0`). -/
def natToStr (n : Nat) : Str := natToStrGo (n + 1) n

/-- Decimal rendering of an integer (`String(int)`). -/
def intToStr (n : Int) : Str :=
  if n < 0 then '-' :: natToStr n.natAbs else natToStr n.toNat

/-- `romanToInt` from the source: small Roman numerals to their value,
`-1` otherwise. -/
def romanToInt (input : Str) : Int :=
  let s := lc input
  if s = str "i" then 1
  else if s = str "ii" then 2
  else if s = str "iii" then 3
  else if s = str "iiii" ∨ s = str "iv" then 4
  else if s = str "v" then 5
  else if s = str "vi" then 6
  else if s = str "vii" then 7
  else if s = str "viii" then 8
  else if s = str "ix" then 9
  else if s = str "x" then 10
  else -1

/-- `asciiFoldKeepSpace` from the source: lower-case A–Z, keep
`[a-z0-9 ]`, map `&` to `" and "`, every other character to a space. -/
def asciiFoldKeepSpace : Str → Str
  | [] => []
  | c :: cs =>
    let c' := if 'A' ≤ c ∧ c ≤ 'Z' then Char.ofNat (c.toNat - 65 + 97) else c
    if isLowerAlnum c' ∨ c' = ' ' then c' :: asciiFoldKeepSpace cs
    else if c' = '&' then str " and " ++ asciiFoldKeepSpace cs
    else ' ' :: asciiFoldKeepSpace cs

/-- The run-collapsing pass of `squeezeSpace`; the flag is `prevSpace`. -/
def collapseSpaces : Str → Bool → Str
  | [], _ => []
  | c :: cs, prevSpace =>
    if c = ' ' then
      (if prevSpace then [] else [' ']) ++ collapseSpaces cs true
    else c :: collapseSpaces cs false

/-- The trimming pass of `squeezeSpace`: drop spaces at both ends. -/
def trimEnds (s : Str) : Str :=
  ((s.dropWhile (· = ' ')).reverse.dropWhile (· = ' ')).reverse

/-- `squeezeSpace` from the source: collapse runs of spaces, then trim. -/
def squeezeSpace (s : Str) : Str := trimEnds (collapseSpaces s false)

/-- The leading-`x` strip inside `tokenize`: drop a leading `x` when it
is followed by a lower-case letter or digit. -/
def xStrip (s : Str) : Str :=
  match s with
  | c0 :: c1 :: rest =>
    if c0 = 'x' ∧ (('a' ≤ c1 ∧ c1 ≤ 'z') ∨ ('0' ≤ c1 ∧ c1 ≤ '9')) then c1 :: rest
    else s
  | _ => s

/-- The leading-article strip inside `tokenize`: drop a leading `"the "`. -/
def theStrip (s : Str) : Str :=
  if (str "the ") <+: s then s.drop 4 else s

/-- The whitespace split inside `tokenize`: maximal runs of non-space
characters, in order. -/
def splitTokens (s : Str) : List Str := (s.splitOn ' ').filter (fun t => t ≠ [])

/-- The per-token Roman-numeral rewrite inside `tokenize`. -/
def romanFix (t : Str) : Str :=
  let r := romanToInt t
  if 0 < r then natToStr r.toNat else t

/-- `tokenize` from the source. -/
def tokenize (raw : Str) : List Str :=
  ((splitTokens (squeezeSpace (asciiFoldKeepSpace (theStrip (xStrip (lc raw)))))).map
    romanFix)

/-- `normKey` from the source: the concatenation of the tokens. -/
def normKey (raw : Str) : Str := (tokenize raw).flatten

/-- Tokens re-joined on single spaces (the claimed idempotence input). -/
def joinToks (ts : List Str) : Str := [' '].intercalate ts

/-- `isRegionWord` from the source. -/
def isRegionWord (tok : Str) : Bool :=
  let t0 := lc tok
  let t := if t0 ≠ [] ∧ t0.getLast? = some ',' then t0.dropLast else t0
  t = str "ntsc" ∨ t = str "pal" ∨ t = str "usa" ∨ t = str "us" ∨
  t = str "japan" ∨ t = str "jpn" ∨ t = str "germany" ∨ t = str "de" ∨
  t = str "europe" ∨ t = str "eu" ∨ t = str "asia" ∨ t = str "kor" ∨
  t = str "korea" ∨ t = str "au" ∨ t = str "australia"

/-- `String::lastIndexOf(char)`: index of the last occurrence, `-1` if none. -/
def lastIdxOf (c : Char) (s : Str) : Int :=
  match s.reverse.findIdx? (· = c) with
  | some i => ((s.length - 1 - i : Nat) : Int)
  | none => -1

/-- The separator split used on a parenthetical region list (spaces and
commas both separate, exactly as the index loop in the source does). -/
def regionToks (inside : Str) : List Str :=
  (inside.splitOnP (fun c => c = ' ' ∨ c = ',')).filter (fun t => t ≠ [])

/-- `familyKeyFromLabel` from the source: strip a trailing parenthetical
whose words are all region words, trim, and normalise. -/
def familyKeyFromLabel (name : Str) : Str :=
  let s := name
  let opn := lastIdxOf '(' s
  let cls := lastIdxOf ')' s
  let s' :=
    if 0 ≤ opn ∧ opn < cls ∧ cls = (s.length : Int) - 1 then
      let inside := (s.drop (opn.toNat + 1)).take (cls.toNat - (opn.toNat + 1))
      let toks := regionToks inside
      if toks ≠ [] ∧ toks.all isRegionWord then s.take opn.toNat else s
    else s
  normKey (trimEnds s')

/-- The region-suffix list of `familyKeyFromSlug`, in source order. -/
def slugSuffixes : List Str :=
  [str "-ntsc", str "-pal", str "-usa", str "-japan", str "-jpn",
   str "-germany", str "-eu", str "-europe", str "-asia", str "-kor", str "-korea"]

/-- Strip the first matching suffix from the list (the source loop breaks
after the first hit, and only strips when the string is strictly longer
than the suffix). -/
def stripFirstSuffix (s : Str) : List Str → Str
  | [] => s
  | suf :: rest =>
    if suf.length < s.length ∧ suf <:+ s then s.take (s.length - suf.length)
    else stripFirstSuffix s rest

/-- `familyKeyFromSlug` from the source. -/
def familyKeyFromSlug (slug : Str) : Str :=
  let s := lc slug
  let s := stripFirstSuffix s slugSuffixes
  let spaced := s.map (fun c => if c = '-' then ' ' else c)
  normKey spaced

/-- `tokenOverlapScore` from the source: 12 per query token present in
the candidate tokens, capped at 60. -/
def tokenOverlapScore (qtoks ctoks : List Str) : Int :=
  if qtoks = [] ∨ ctoks = [] then 0
  else
    let hits := (qtoks.filter (fun q => ctoks.contains q)).length
    min (hits * 12 : Int) 60

/-- `firstTokenBoost` from the source. -/
def firstTokenBoost (qtoks ctoks : List Str) : Int :=
  if qtoks = [] ∨ ctoks = [] then 0
  else if qtoks.head? = ctoks.head? then 25 else 0

/-- `isGenericXLA` from the source: every candidate token is drawn from
the generic vocabulary. -/
def isGenericXLA (ctoks : List Str) : Bool :=
  ctoks ≠ [] ∧
    ctoks.all (fun t => t = str "xbox" ∨ t = str "live" ∨ t = str "arcade")

/-- `tokenJaccardPenaltyShort` from the source. -/
def tokenJaccardPenaltyShort (candNorm : Str) : Int :=
  if candNorm.length ≤ 6 then -20 else 0

/-- The bigram set of a string, as in the source's `grams` lambda.  The
source sorts and `std::unique`s the bigram vector; sorting only enables
the linear merge that computes the intersection size, so the model keeps
the de-duplicated set (first occurrences) — the intersection and union
cardinalities below are unaffected by the order. -/
def grams (s : Str) : List Str :=
  (((List.range (s.length - 1)).map (fun i => (s.drop i).take 2)).dedup)

/-- `bigramJaccardScore` from the source.  The C code computes
`(int)((float)inter / uni * 70.0f)`; on the small bigram-set sizes that
arise here the `float` computation is exact enough that truncation
agrees with natural division `inter * 70 / uni`, which is what the model
uses. -/
def bigramJaccardScore (a b : Str) : Int :=
  if a = [] ∨ b = [] then 0
  else
    let A := grams a
    let B := grams b
    let inter := (A.filter (fun g => B.contains g)).length
    let uni := A.length + B.length - inter
    if uni = 0 then 0
    else
      let score := (inter * 70) / uni
      min (score : Int) 70

/-- Does `s` start with `pre`? (`String::startsWith`.) -/
def strStartsWith : Str → Str → Bool
  | _, [] => true
  | [], _ :: _ => false
  | c :: cs, d :: ds => c = d ∧ strStartsWith cs ds

/-- Substring containment, `big.indexOf(small) >= 0`.  `strstr` (which
`String::indexOf` wraps) reports an empty needle as found at position 0. -/
def strHasSub : Str → Str → Bool
  | big, small =>
    if strStartsWith big small then true
    else
      match big with
      | [] => false
      | _ :: rest => strHasSub rest small

/-- `containsBonus` from the source. -/
def containsBonus (small big : Str) : Int :=
  if small = [] ∨ big = [] then 0
  else if strHasSub big small then
    if 12 ≤ small.length then 25
    else if 8 ≤ small.length then 22
    else if 5 ≤ small.length then 18
    else 15
  else 0

/-- The rank-column header aliases. -/
def RANK_KEYS : List Str :=
  [str "rank", str "#", str "pos", str "position", str "place"]

/-- The name-column header aliases. -/
def NAME_KEYS : List Str :=
  [str "name", str "player", str "gamertag", str "gamer", str "tag",
   str "alias", str "username", str "user", str "gt", str "account"]

/-- `in_list_ci` from the source. -/
def in_list_ci (s : Str) (keys : List Str) : Bool := keys.contains (lc s)

/-- The ranked metric-key preference list. -/
def PREFER_METRIC : List Str :=
  [str "score", str "points", str "rating", str "time", str "best time",
   str "laps", str "wins", str "value"]

/-- `metric_pref` from the source: the index in the preference list, 100
if absent. -/
def metric_pref (key : Str) : Nat :=
  match PREFER_METRIC.findIdx? (fun k => k = lc key) with
  | some i => i
  | none => 100

/-- Reinterpret a 32-bit pattern as a two's-complement signed `int`. -/
def toInt32 (n : Nat) : Int :=
  if n < 2147483648 then (n : Int) else (n : Int) - 4294967296

/-- `rankKey` from the source: the first run of digits anywhere in the
string is accumulated by `n = n*10 + digit` into a 32-bit signed `int`
(two's-complement wrap, no overflow detection), and `1000000000` is
returned when the string has no digit at all. -/
def rankKey (rs : Str) : Int :=
  match rs.dropWhile (fun c => ¬ c.isDigit) with
  | [] => 1000000000
  | ds => toInt32 ((ds.takeWhile Char.isDigit).foldl
      (fun n c => (n * 10 + (c.toNat - 48)) % 4294967296) 0)

/-- The fixed acceptance threshold `MIN_ACCEPT_SCORE`. -/
def MIN_ACCEPT_SCORE : Int := 65

/-- One row of the remote index, as produced by the object scanner in
`resolveTitlePool`: only objects exposing a `title_id` field take part,
and a missing optional field leaves the default-constructed empty
string. -/
structure SEntry where
  title_id : Str
  name : Str
  name_lc : Str
  slug : Str
deriving DecidableEq, Repr

/-- The running best-match record of `resolveTitlePool` (pass 1). -/
structure Best where
  id : Str := []
  name : Str := []
  nlc : Str := []
  slug : Str := []
  score : Int := 0
  reason : Str := []
  fam : Str := []
deriving DecidableEq, Repr

/-- The family key chosen for an accepted entry: from the label, falling
back to the slug. -/
def famOf (e : SEntry) : Str :=
  let f := familyKeyFromLabel e.name
  if f = [] then familyKeyFromSlug e.slug else f

/-- Per-entry score and reason, exactly the pass-1 body of
`resolveTitlePool`: tier scores for exact matches, otherwise the
composite score with its adjustments, then the hard overlap gate. -/
def scoreEntry (curApp : Str) (e : SEntry) : Int × Str :=
  let qToks := tokenize curApp
  let qNorm := normKey curApp
  let nName := normKey e.name
  let nSlug := normKey e.slug
  let tName := tokenize e.name
  let tSlug := tokenize e.slug
  let base : Int × Str :=
    if lc e.name = lc curApp then (100, str "exact name")
    else if e.name_lc ≠ [] ∧ e.name_lc = lc curApp then (98, str "exact name_lc")
    else if lc e.slug = lc curApp then (95, str "exact slug")
    else if nName = qNorm then (93, str "norm(name)")
    else if nSlug = qNorm then (91, str "norm(slug)")
    else
      let stName := tokenOverlapScore qToks tName + firstTokenBoost qToks tName
      let stSlug := tokenOverlapScore qToks tSlug + firstTokenBoost qToks tSlug
      let sb1 := bigramJaccardScore qNorm nName
      let sb2 := bigramJaccardScore qNorm nSlug
      let sc1 := containsBonus qNorm nName
      let sc2 := containsBonus qNorm nSlug
      let sc3 := containsBonus nName qNorm
      let sc4 := containsBonus nSlug qNorm
      let s0 := max (max stName stSlug) (max (max sb1 sb2) (max (max sc1 sc2) (max sc3 sc4)))
      let s1 :=
        if firstTokenBoost qToks tName = 0 ∧ firstTokenBoost qToks tSlug = 0 then
          s0 + tokenJaccardPenaltyShort nName
        else s0
      let s2 :=
        if isGenericXLA tName then
          if qToks = [] ∨ qToks.head? ≠ some (str "xbox") then s1 - 35 else s1
        else s1
      (max s2 0, [])
  let tokenOverlap :=
    qToks ≠ [] ∧ qToks.any (fun q => tName.contains q ∨ tSlug.contains q)
  let containsEither :=
    strHasSub nName qNorm ∨ strHasSub nSlug qNorm ∨
    strHasSub qNorm nName ∨ strHasSub qNorm nSlug
  if tokenOverlap ∨ containsEither then base else (0, [])

/-- The `better` tie-break lambda of `resolveTitlePool`. -/
def betterThan (curApp : Str) (A : Best) (sc : Int) (nNm : Str) (tNm : List Str)
    (name : Str) : Bool :=
  let qNorm := normKey curApp
  if sc > A.score then true
  else if sc < A.score then false
  else
    let da := ((nNm.length : Int) - (qNorm.length : Int)).natAbs
    let db := (((normKey A.name).length : Int) - (qNorm.length : Int)).natAbs
    if da ≠ db then decide (da < db)
    else
      let qT := tokenize curApp
      let af := qT ≠ [] ∧ tNm ≠ [] ∧ qT.head? = tNm.head?
      let bf := qT ≠ [] ∧ tokenize A.name ≠ [] ∧ qT.head? = (tokenize A.name).head?
      if af ≠ bf then af else decide (name.length < A.name.length)

/-- One pass-1 step: fold the next index entry into the running best. -/
def matchStep (curApp : Str) (A : Best) (e : SEntry) : Best :=
  let sr := scoreEntry curApp e
  let score := sr.1
  let nName := normKey e.name
  let tName := tokenize e.name
  if MIN_ACCEPT_SCORE ≤ score ∧
      (A.id = [] ∨ betterThan curApp A score nName tName e.name) then
    { id := e.title_id, name := e.name, nlc := e.name_lc, slug := e.slug,
      score := score, reason := sr.2, fam := famOf e }
  else A

/-- Pass 1 of `resolveTitlePool`: scan the whole index for the best
acceptable candidate; `none` when nothing reaches `MIN_ACCEPT_SCORE`. -/
def matchBest (curApp : Str) (idx : List SEntry) : Option Best :=
  let best := idx.foldl (matchStep curApp) {}
  if best.id = [] ∨ best.score < MIN_ACCEPT_SCORE then none else some best

/-- Pass 2 of `resolveTitlePool`: collect the de-duplicated ids of every
entry whose family key equals the accepted entry's; fall back to the
accepted id alone. -/
def collectPool (fam : Str) (idx : List SEntry) : List Str :=
  idx.foldl
    (fun pool e =>
      if famOf e = fam ∧ e.title_id ≠ [] ∧ ¬ pool.contains e.title_id then
        pool ++ [e.title_id]
      else pool)
    []

/-- `resolveTitlePool`, restricted to its matching core: from a query and
the parsed index entries to the final title pool (`none` = resolution
failed).  The WorkRoot and network guards and the fetch of `search.json`
sit outside this core and are modelled at the engine level. -/
def resolvePool (curApp : Str) (idx : List SEntry) : Option (List Str) :=
  if curApp = [] then none
  else if normKey curApp = [] then none
  else
    match matchBest curApp idx with
    | none => none
    | some best =>
      let pool := collectPool best.fam idx
      some (if pool = [] then [best.id] else pool)

/-- Parsed JSON values, the shapes `ArduinoJson` exposes to the loader. -/
inductive JVal where
  | jnull : JVal
  | jstr : Str → JVal
  | jnum : Int → JVal
  | jbool : Bool → JVal
  | jarr : List JVal → JVal
  | jobj : List (Str × JVal) → JVal

/-- Object field lookup, `doc[key]` (null on anything but an object with
the key; first binding wins). -/
def objGet (v : JVal) (key : Str) : JVal :=
  match v with
  | .jobj fields =>
    match fields.find? (fun kv => kv.1 = key) with
    | some kv => kv.2
    | none => .jnull
  | _ => .jnull

/-- `j2s` from the source: null renders empty; strings render
themselves; scalars render through `as<String>`.  Nested containers
never reach `j2s` in the claims considered here and render empty. -/
def j2s (v : JVal) : Str :=
  match v with
  | .jnull => []
  | .jstr s => s
  | .jnum n => intToStr n
  | .jbool b => if b then str "true" else str "false"
  | .jarr _ => []
  | .jobj _ => []

/-- A populated leaderboard row. -/
structure Row where
  rank : Str := []
  name : Str := []
  metric : Str := []
  extras : List Str := []
deriving DecidableEq, Repr

/-- A populated board. -/
structure Board where
  name : Str := []
  rows : List Row := []
deriving DecidableEq, Repr

/-- Drop extras whose key is empty or a rank/name alias (the cleaning
block of the row loop). -/
def cleanExtras (extras : List Str) : List Str :=
  extras.filter (fun kv =>
    let eq := kv.findIdx? (· = '=')
    let k : Str := match eq with
      | some i => if 0 < i then kv.take i else []
      | none => []
    k ≠ [] ∧ ¬ in_list_ci k RANK_KEYS ∧ ¬ in_list_ci k NAME_KEYS)

/-- Index (if any) of the extras entry whose key scores best in
`metric_pref`; strict improvement only, so the first minimum wins. -/
def bestMetricIdx (extras : List Str) : Option Nat :=
  let scored := extras.enum.filterMap (fun p =>
    match p.2.findIdx? (· = '=') with
    | some i => if 0 < i then some (p.1, metric_pref (p.2.take i)) else none
    | none => none)
  match scored.foldl
      (fun acc p => match acc with
        | none => if p.2 < 999 then some p else none
        | some b => if p.2 < b.2 then some p else some b)
      none with
  | some b => some b.1
  | none => none

/-- Split `"k=v"` at its first `=` and keep `v` (the metric extraction). -/
def valAfterEq (kv : Str) : Str :=
  match kv.findIdx? (· = '=') with
  | some i => kv.drop (i + 1)
  | none => []

/-- Pick the row metric out of the cleaned extras, returning the metric
and the remaining extras (the metric-choice block of the row loop). -/
def chooseMetric (extras : List Str) : Str × List Str :=
  match bestMetricIdx extras with
  | some i => (valAfterEq (extras.getD i []), extras.eraseIdx i)
  | none =>
    match extras with
    | [] => ([], [])
    | kv :: rest =>
      match kv.findIdx? (· = '=') with
      | some i => if 0 < i then (kv.drop (i + 1), rest) else ([], kv :: rest)
      | none => ([], kv :: rest)

/-- Build one `Row` from a source row value, following the three row
shapes of the loader.  `cols` is the resolved column list, `rankIdx` and
`nameIdx` the resolved alias columns (`-1` = none), `pos0` the number of
rows already pushed onto the board. -/
def makeRow (cols : List Str) (rankIdx nameIdx : Int) (pos0 : Nat) (rv : JVal) : Row :=
  match rv with
  | .jobj fields =>
    let valByCol : Int → Str := fun i =>
      if 0 ≤ i ∧ i < (cols.length : Int) then
        j2s (objGet (.jobj fields) (cols.getD i.toNat []))
      else []
    let rank0 := if 0 ≤ rankIdx then valByCol rankIdx else []
    let name0 := if 0 ≤ nameIdx then valByCol nameIdx else []
    let rank1 :=
      if rank0 = [] then
        match fields.find? (fun kv => in_list_ci kv.1 RANK_KEYS) with
        | some kv => j2s kv.2
        | none => []
      else rank0
    let name1 :=
      if name0 = [] then
        match fields.find? (fun kv => in_list_ci kv.1 NAME_KEYS) with
        | some kv => j2s kv.2
        | none => []
      else name0
    let rank2 := if rank1 = [] then natToStr (pos0 + 1) else rank1
    let declaredExtras :=
      (cols.enum.filterMap (fun p =>
        if (p.1 : Int) = rankIdx ∨ (p.1 : Int) = nameIdx then none
        else
          let v := valByCol (p.1 : Int)
          if v ≠ [] then some (p.2 ++ '=' :: v) else none))
    let undeclaredExtras :=
      (fields.filterMap (fun kv =>
        if kv.1 = [] ∨ cols.contains kv.1 then none
        else
          let v := j2s kv.2
          if v ≠ [] then some (kv.1 ++ '=' :: v) else none))
    let extras := cleanExtras (declaredExtras ++ undeclaredExtras)
    let m := chooseMetric extras
    { rank := rank2, name := name1, metric := m.1, extras := m.2 }
  | .jarr cells =>
    let valAt : Int → Str := fun i =>
      if 0 ≤ i ∧ i < (cells.length : Int) then j2s (cells.getD i.toNat .jnull) else []
    let rank := if 0 ≤ rankIdx then valAt rankIdx else natToStr (pos0 + 1)
    let name := if 0 ≤ nameIdx then valAt nameIdx else []
    let extras0 :=
      (cols.enum.filterMap (fun p =>
        if (p.1 : Int) = rankIdx ∨ (p.1 : Int) = nameIdx then none
        else
          let v := valAt (p.1 : Int)
          if v ≠ [] then some (p.2 ++ '=' :: v) else none))
    let extras := cleanExtras extras0
    let m := chooseMetric extras
    { rank := rank, name := name, metric := m.1, extras := m.2 }
  | _ =>
    let extras := cleanExtras []
    let m := chooseMetric extras
    { rank := natToStr (pos0 + 1), name := j2s rv, metric := m.1, extras := m.2 }

/-- The row loop of one scoreboard: rows are appended in order; the
hard safety cap stops after 1000 rows (the configurable
`MAX_ROWS_PER_BOARD` is 0 = unlimited in the shipped source). -/
def buildRows (cols : List Str) (rankIdx nameIdx : Int) : List JVal → List Row → List Row
  | [], acc => acc
  | rv :: rest, acc =>
    let acc' := acc ++ [makeRow cols rankIdx nameIdx acc.length rv]
    if 1000 ≤ acc'.length then acc'
    else buildRows cols rankIdx nameIdx rest acc'

/-- Row comparison used by the final `std::sort`: ascending `rankKey`.
`std::sort` guarantees a permutation ordered by the comparator; the
model realises that contract with insertion sort. -/
def rowLE (a b : Row) : Prop := rankKey a.rank ≤ rankKey b.rank

instance : DecidableRel rowLE := fun a b =>
  inferInstanceAs (Decidable (rankKey a.rank ≤ rankKey b.rank))

/-- Sort a board's rows ascending by `rankKey`. -/
def sortRows (rows : List Row) : List Row := List.insertionSort rowLE rows

/-- Build one board from one `scoreboards` element; `none` when the
element is skipped (not an object, no `rows` array, or no rows kept). -/
def buildBoard (vSB : JVal) : Option Board :=
  match vSB with
  | .jobj sb =>
    let name0 := j2s (objGet (.jobj sb) (str "name"))
    let bname := if name0 = [] then str "default" else name0
    let cols0 : List Str :=
      match objGet (.jobj sb) (str "columns") with
      | .jarr vs => vs.map j2s
      | _ => []
    match objGet (.jobj sb) (str "rows") with
    | .jarr rowsA =>
      let cols :=
        if cols0 = [] then
          match rowsA.head? with
          | some (.jobj first) => first.map (fun kv => kv.1)
          | _ => []
        else cols0
      let rankIdx : Int :=
        match cols.findIdx? (fun c => in_list_ci c RANK_KEYS) with
        | some i => (i : Int)
        | none => -1
      let nameIdx : Int :=
        match cols.findIdx? (fun c => in_list_ci c NAME_KEYS) with
        | some i => (i : Int)
        | none => -1
      let rows := buildRows cols rankIdx nameIdx rowsA []
      if rows = [] then none else some { name := bname, rows := sortRows rows }
    | _ => none
  | _ => none

/-- The `scoreboards` loop of `loadGameModel`. -/
def buildBoards (sbs : List JVal) : List Board := sbs.filterMap buildBoard

/-- The engine's module-level mutable state.  `scrollY` is a `float` in
the source but is only ever assigned `0` or incremented by the integral
`PIXELS_PER_STEP = 1`, so it stays integer-valued and is modelled as
`Int`.  Timestamps are `millis()` readings; the model keeps them as
`Nat` (the claims below do not depend on 32-bit timer wraparound). -/
structure EngState where
  base : Str := str "http://darkone83.myddns.me:8080/xbox"
  workRoot : Str := []
  curApp : Str := []
  gameTitle : Str := []
  haveSearch : Bool := false
  resolved : Bool := false
  loaded : Bool := false
  titlePool : List Str := []
  curTitleIdx : Int := -1
  boards : List Board := []
  curBoard : Int := -1
  scrollY : Int := 0
  lastStep : Nat := 0
  lastBoardSwitch : Nat := 0
  freezeUntilMs : Nat := 0
  lastFetchMs : Nat := 0
  lastModelSwitch : Nat := 0
  probeList : List Str := []
  probeIdx : Nat := 0
  nextProbeAt : Nat := 0
deriving DecidableEq, Repr

/-- `resetRuntime` from the source.  Its `keepRoot` parameter is ignored
by the implementation, and `WORK_ROOT`, `BASE`, `curApp` and
`lastFetchMs` are left untouched. -/
def resetRuntime (s : EngState) : EngState :=
  { s with boards := [], curBoard := -1, gameTitle := [],
           haveSearch := false, resolved := false, loaded := false,
           titlePool := [], curTitleIdx := -1, scrollY := 0,
           lastStep := 0, lastBoardSwitch := 0, freezeUntilMs := 0,
           lastModelSwitch := 0, probeList := [], probeIdx := 0,
           nextProbeAt := 0 }

/-- `setServerBase` from the source: it records the new base CSV and
nothing else. -/
def setServerBase (s : EngState) (base : Str) : EngState := { s with base := base }

/-- Strip every trailing `/` (the `add` lambda of
`buildCandidateRoots`). -/
def stripTrailingSlashes (s : Str) : Str := (s.reverse.dropWhile (· = '/')).reverse

/-- Add one candidate root: slash-stripped, skipping empties and
duplicates. -/
def addRoot (out : List Str) (s : Str) : List Str :=
  let t := stripTrailingSlashes s
  if t ≠ [] ∧ ¬ out.contains t then out ++ [t] else out

/-- The per-base candidate additions of `buildCandidateRoots`. -/
def addRootsForBase (out : List Str) (b : Str) : List Str :=
  let out := addRoot out b
  let out := if (str "/data") <:+ b then addRoot out (b.take (b.length - 5)) else out
  let out := addRoot out (b ++ str "/xbox")
  addRoot out (b ++ str "/xbox/data")

/-- `buildCandidateRoots` from the source: split the configured base CSV
on commas, trim each part, and derive the candidate roots.  (Arduino
`String::trim` strips leading/trailing whitespace; spaces are the only
whitespace arising here.) -/
def buildCandidateRoots (base : Str) : List Str :=
  let parts := ((trimEnds base).splitOn ',').map trimEnds
  (parts.filter (fun b => b ≠ [])).foldl addRootsForBase []

/-- `startProbingIfNeeded` from the source. -/
def startProbingIfNeeded (s : EngState) : EngState :=
  if s.probeList ≠ [] ∨ s.workRoot ≠ [] then s
  else { s with probeList := buildCandidateRoots s.base, probeIdx := 0, nextProbeAt := 0 }

/-- Result of one probing step: the source's return value, the updated
state, and — as a ghost observation for stating probing-freedom — the
candidate URL whose index resource was consulted, if any. -/
structure ProbeOut where
  ok : Bool
  s : EngState
  probedUrl : Option Str
deriving Repr

/-- `onAppName` from the source. -/
def onAppName (s : EngState) (app : Str) (net : Bool) : EngState :=
  let t := trimEnds app
  if t = s.curApp then s
  else
    let s1 := resetRuntime { s with curApp := t }
    if t = [] then s1
    else if net then startProbingIfNeeded s1 else s1

/-- `stepProbeWorkRoot` from the source.  The environment enters as
parameters: `net` is `netReady()`, `cacheBody url` the outcome of the
stale-tolerant `cacheRead` of `url`, `netBody url` the outcome of
`httpGet url`, and `parse` the `deserializeJson` verdict on a body (the
`cacheWrite` of a fetched body mutates only the cache, which is
modelled separately). -/
def stepProbeWorkRoot (s : EngState) (now : Nat) (net : Bool)
    (cacheBody netBody : Str → Option Str) (parse : Str → Option JVal) : ProbeOut :=
  if s.workRoot ≠ [] then ⟨true, s, none⟩
  else if ¬ net then ⟨false, s, none⟩
  else
    let s := if s.probeList = [] then startProbingIfNeeded s else s
    if now < s.nextProbeAt then ⟨false, s, none⟩
    else
      let s := { s with nextProbeAt := now + 200 }
      if s.probeList.length ≤ s.probeIdx then
        ⟨false, { s with nextProbeAt := now + 2000, probeIdx := 0 }, none⟩
      else
        let r := s.probeList.getD s.probeIdx []
        let s := { s with probeIdx := s.probeIdx + 1 }
        let url := r ++ str "/data/search.json"
        let fromCache : Bool :=
          match cacheBody url with
          | some body => (parse body).isSome
          | none => false
        if fromCache then ⟨true, { s with workRoot := r }, some url⟩
        else
          match netBody url with
          | some body =>
            if (parse body).isSome then ⟨true, { s with workRoot := r }, some url⟩
            else ⟨false, s, some url⟩
          | none => ⟨false, s, some url⟩

/-- The state-transition part of `resolveTitlePool`: guards, then the
matching core (`resolvePool`'s pieces) against the fetched index.
`idxResp` is the parsed entry list of `search.json` (`none` = neither
cache nor network produced a body); `rIdx` is the `esp_random()` draw
seeding the pool cursor. -/
def resolveTitlePoolS (s : EngState) (net : Bool) (idxResp : Option (List SEntry))
    (rIdx : Nat) : Bool × EngState :=
  if ¬ net ∧ s.workRoot = [] then (false, s)
  else if s.workRoot = [] then (false, s)
  else if s.curApp = [] then (false, s)
  else if normKey s.curApp = [] then (false, s)
  else
    match idxResp with
    | none => (false, s)
    | some idx =>
      match matchBest s.curApp idx with
      | none => (false, s)
      | some best =>
        let pool0 := collectPool best.fam idx
        let pool := if pool0 = [] then [best.id] else pool0
        (true, { s with titlePool := pool,
                        curTitleIdx := ((rIdx % pool.length : Nat) : Int),
                        haveSearch := true, resolved := true })

/-- `loadGameModel` from the source, as a state transition.  `fetchResp`
is the document body (`none` = cache and network both failed), `parse`
the `deserializeJson` verdict, `rBoard` the random draw seeding the
board cursor.  Note the source clears `boards`, `curBoard` and
`gameTitle` as soon as the body parses, before checking `scoreboards`. -/
def loadGameModelS (s : EngState) (now : Nat) (rBoard : Nat)
    (fetchResp : Option Str) (parse : Str → Option JVal) : Bool × EngState :=
  match fetchResp with
  | none => (false, s)
  | some body =>
    match parse body with
    | none => (false, s)
    | some doc =>
      let s := { s with boards := [], curBoard := -1,
                        gameTitle := j2s (objGet doc (str "game_title")) }
      match objGet doc (str "scoreboards") with
      | .jarr sbs =>
        let bs := buildBoards sbs
        if bs = [] then (false, s)
        else
          (true, { s with boards := bs,
                          curBoard := ((rBoard % bs.length : Nat) : Int),
                          lastBoardSwitch := now, scrollY := 0,
                          freezeUntilMs := now + 750, loaded := true,
                          lastModelSwitch := now })
      | _ => (false, s)

/-- `maybeResolveAndLoad` from the source.  The `now - lastFetchMs`
guard is `uint32_t` arithmetic in the source; as `Nat` subtraction it
truncates at zero, which only differs across a 49-day timer wrap that
the claims below do not exercise. -/
def maybeResolveAndLoad (s : EngState) (now : Nat) (net : Bool)
    (cacheBody netBody : Str → Option Str) (parse : Str → Option JVal)
    (idxResp : Option (List SEntry)) (rIdx : Nat)
    (byIdResp : Option Str) (rBoard : Nat) : EngState :=
  if now - s.lastFetchMs < 100 then s
  else
    let s := { s with lastFetchMs := now }
    if s.workRoot = [] then (stepProbeWorkRoot s now net cacheBody netBody parse).s
    else if ¬ s.resolved then (resolveTitlePoolS s net idxResp rIdx).2
    else if ¬ s.loaded then
      if s.curTitleIdx < 0 ∨ (s.titlePool.length : Int) ≤ s.curTitleIdx then s
      else (loadGameModelS s now rBoard byIdResp parse).2
    else s

/-- The body of `tick` after `maybeResolveAndLoad` has run: advance
scroll, rotate boards, and schedule a variant switch.  `rRot` is the
random draw of the rotation. -/
def tickCore (s : EngState) (now : Nat) (rRot : Nat) : EngState :=
  if ¬ (s.resolved ∧ s.loaded) then s
    else if now < s.freezeUntilMs then s
    else
      let s := if 40 ≤ now - s.lastStep then { s with lastStep := now, scrollY := s.scrollY + 1 } else s
      if 0 ≤ s.curBoard ∧ s.curBoard < (s.boards.length : Int) then
        let B := s.boards.getD s.curBoard.toNat {}
        let last_i : Int := (B.rows.length : Int) - 1
        let y_last : Int := (64 - 2) - (s.scrollY - last_i * 9)
        let last_top : Int := y_last - 7
        if last_top < ((14 + 2) + 9 : Int) ∧ 3000 ≤ now - s.lastBoardSwitch then
          let next0 : Int :=
            if 1 < s.boards.length then ((rRot % s.boards.length : Nat) : Int) else s.curBoard
          let next : Int :=
            if 1 < s.boards.length ∧ next0 = s.curBoard then
              (next0 + 1) % (s.boards.length : Int)
            else next0
          let s := { s with curBoard := next, scrollY := 0, lastBoardSwitch := now,
                            freezeUntilMs := now + 750 }
          if 1 < s.titlePool.length ∧ 12000 ≤ now - s.lastModelSwitch then
            { s with curTitleIdx := (s.curTitleIdx + 1) % (s.titlePool.length : Int),
                     loaded := false }
          else s
        else s
      else s

/-- `tick` from the source: run the resolve/load scheduler (which may
probe, resolve, or load), then the scroll-and-rotation core. -/
def tick (s : EngState) (now : Nat) (net : Bool)
    (cacheBody netBody : Str → Option Str) (parse : Str → Option JVal)
    (idxResp : Option (List SEntry)) (rIdx : Nat)
    (byIdResp : Option Str) (rBoard rRot : Nat) : EngState :=
  if s.curApp = [] then s
  else
    tickCore (maybeResolveAndLoad s now net cacheBody netBody parse idxResp rIdx byIdResp rBoard)
      now rRot

/-- One file of the SPIFFS filesystem: path, contents, and
last-write time (a `time_t`). -/
structure CFile where
  path : Str
  body : Str
  mtime : Int
deriving DecidableEq, Repr

/-- The cache-relevant state: the filesystem (a list of files with
distinct paths, in directory-iteration order, new files appended at the
end), the mount flag, and the configured limits (their defaults are the
source's). -/
structure CacheState where
  files : List CFile := []
  fsReady : Bool := true
  maxFiles : Nat := 32
  maxBytes : Nat := 131072
  maxAgeMs : Nat := 21600000
deriving DecidableEq, Repr

/-- Left-to-right, non-overlapping replacement of `pat` by `rep`
(`String::replace`), fuel-driven so it reduces; one character is
consumed per step, so `s.length` fuel always suffices. -/
def strReplaceGo (pat rep : Str) : Nat → Str → Str
  | 0, s => s
  | fuel + 1, s =>
    match s with
    | [] => []
    | c :: cs =>
      if pat ≠ [] ∧ pat <+: (c :: cs) then
        rep ++ strReplaceGo pat rep fuel ((c :: cs).drop pat.length)
      else c :: strReplaceGo pat rep fuel cs

/-- `String::replace(pat, rep)`. -/
def strReplace (s pat rep : Str) : Str := strReplaceGo pat rep s.length s

/-- `sanitizeKey` from the source: collapse the scheme separator,
replace reserved path characters by `_`, ensure a leading slash, and
prefix the cache directory. -/
def sanitizeKey (url : Str) : Str :=
  let k := strReplace url (str "://") (str "__")
  let k := k.map (fun c =>
    if c = '/' ∨ c = '?' ∨ c = ':' ∨ c = '&' ∨ c = '=' ∨ c = '%' ∨ c = '#' then '_' else c)
  let k := if (str "/") <+: k then k else '/' :: k
  str "/insig" ++ k

/-- Is this file under the cache directory? -/
def isCacheFile (f : CFile) : Bool := (str "/insig") <+: f.path

/-- The age computation `(uint32_t)((nowt - mtime) * 1000UL)`: the
signed 64-bit difference times 1000, narrowed to 32 bits. -/
def ageMs (now mtime : Int) : Int := ((now - mtime) * 1000) % (4294967296 : Int)

/-- The phase-1 age test of `pruneCache`. -/
def tooOldF (maxAgeMs : Nat) (now : Int) (f : CFile) : Bool :=
  0 < now ∧ 0 < f.mtime ∧ (maxAgeMs : Int) < ageMs now f.mtime

/-- Number of cache-directory files (`dirSize`'s file count). -/
def countCache (fs : List CFile) : Nat := (fs.filter isCacheFile).length

/-- Total bytes of cache-directory files (`dirSize`'s byte count). -/
def bytesCache (fs : List CFile) : Nat :=
  ((fs.filter isCacheFile).map (fun f => f.body.length)).sum

/-- `SPIFFS.remove(path)`: drop the (unique) file at `path`. -/
def removeFile (p : Str) (fs : List CFile) : List CFile :=
  fs.eraseP (fun f => f.path = p)

/-- Re-open a path and take its size (`f ? f.size() : 0`). -/
def fileSizeAt (fs : List CFile) (p : Str) : Nat :=
  match fs.find? (fun f => f.path = p) with
  | some f => f.body.length
  | none => 0

/-- The phase-2 removal loop of `pruneCache`: walk the mtime-sorted
entries, removing until both limits hold; the running `cnt`/`byt`
counters mirror the source's `files`/`bytes` locals (including their
clamped decrements). -/
def evictLoop (maxF maxB : Nat) : List CFile → List CFile → Nat → Nat → List CFile
  | [], fs, _, _ => fs
  | e :: rest, fs, cnt, byt =>
    if cnt ≤ maxF ∧ byt ≤ maxB then fs
    else
      let sz := fileSizeAt fs e.path
      evictLoop maxF maxB rest (removeFile e.path fs) (cnt - 1) (byt - sz)

/-- Entry comparison of the phase-2 `std::sort`: ascending mtime.
`std::sort` guarantees a permutation ordered by the comparator; the
model realises that contract with insertion sort. -/
def mtimeLE (a b : CFile) : Prop := a.mtime ≤ b.mtime

instance : DecidableRel mtimeLE := fun a b =>
  inferInstanceAs (Decidable (a.mtime ≤ b.mtime))

/-- Sort cache entries by modification time. -/
def sortByMtime (fs : List CFile) : List CFile := List.insertionSort mtimeLE fs

/-- `pruneCache` from the source: remove over-age cache entries, then —
if the directory still exceeds the configured limits — remove entries
oldest-first until both limits hold. -/
def pruneCache (s : CacheState) (now : Int) : CacheState :=
  if ¬ s.fsReady then s
  else
    let files1 := s.files.filter (fun f => ¬ (isCacheFile f ∧ tooOldF s.maxAgeMs now f))
    let cnt := countCache files1
    let byt := bytesCache files1
    if cnt ≤ s.maxFiles ∧ byt ≤ s.maxBytes then { s with files := files1 }
    else
      let entries := sortByMtime (files1.filter isCacheFile)
      { s with files := evictLoop s.maxFiles s.maxBytes entries files1 cnt byt }

/-- Open `path` for writing and store `body` (truncating any previous
file at that path); the new file's mtime is the current time. -/
def writeFile (fs : List CFile) (p body : Str) (now : Int) : List CFile :=
  (fs.eraseP (fun f => f.path = p)) ++ [⟨p, body, now⟩]

/-- `cacheWrite` from the source: store the body, then prune.  (An
unmounted filesystem fails without writing; an `open`/short-write
failure is an environment fault subsumed in `fsReady` here.) -/
def cacheWrite (s : CacheState) (url body : Str) (now : Int) : Bool × CacheState :=
  if ¬ s.fsReady then (false, s)
  else
    let s1 := { s with files := writeFile s.files (sanitizeKey url) body now }
    (true, pruneCache s1 now)

/-- `cacheRead`'s observable outcome: the returned flag, the `out`
body (assigned even on a stale miss, as in the source), and — as a
ghost—the internal freshness verdict. -/
structure ReadOut where
  ok : Bool
  body : Str
  fresh : Bool
deriving DecidableEq, Repr

/-- `cacheRead` from the source. -/
def cacheRead (s : CacheState) (url : Str) (maxAgeMs : Nat)
    (allowStaleIfNoNet : Bool) (now : Int) : ReadOut :=
  if ¬ s.fsReady then ⟨false, [], false⟩
  else
    match s.files.find? (fun f => f.path = sanitizeKey url) with
    | none => ⟨false, [], false⟩
    | some f =>
      let fresh : Bool := 0 < f.mtime ∧ 0 < now ∧ ageMs now f.mtime ≤ (maxAgeMs : Int)
      if fresh then ⟨true, f.body, true⟩ else ⟨allowStaleIfNoNet, f.body, false⟩

/-- `setCacheLimits` from the source: zero arguments keep the old
values. -/
def setCacheLimits (s : CacheState) (maxFiles maxBytes maxAgeMs : Nat) : CacheState :=
  { s with maxFiles := if maxFiles ≠ 0 then maxFiles else s.maxFiles,
           maxBytes := if maxBytes ≠ 0 then maxBytes else s.maxBytes,
           maxAgeMs := if maxAgeMs ≠ 0 then maxAgeMs else s.maxAgeMs }

/-! ## Claim theorems -/

/-- The two-entry Halo 2 index of claim C2. -/
def halo2Index : List SEntry :=
  [⟨str "AA", str "Halo 2 (NTSC)", [], []⟩,
   ⟨str "BB", str "Halo 2 (PAL)", [], []⟩]

/-- C2 counterexample: the query `"Halo 2"` against an index holding
exactly `Halo 2 (NTSC)` and `Halo 2 (PAL)` does not resolve at all — no
TitlePool of size 2 is produced, resolution fails. -/
theorem c2_halo2_counterexample :
    resolvePool (str "Halo 2") halo2Index = none := by decide

/-- C2 (amended): against that index both entries score exactly 49 —
token overlap 24 plus first-token boost 25 beats every bigram and
containment component — which is below `MIN_ACCEPT_SCORE = 65`, so the
matcher rejects both and resolution fails with no pool installed. -/
theorem c2_halo2_amended :
    scoreEntry (str "Halo 2") ⟨str "AA", str "Halo 2 (NTSC)", [], []⟩ = (49, []) ∧
    scoreEntry (str "Halo 2") ⟨str "BB", str "Halo 2 (PAL)", [], []⟩ = (49, []) ∧
    (49 : Int) < MIN_ACCEPT_SCORE ∧
    matchBest (str "Halo 2") halo2Index = none ∧
    resolvePool (str "Halo 2") halo2Index = none := by decide

/-- C7 counterexample: neither a non-numeric prefix nor overflow yields
the large `sorts last` sentinel — `rankKey` takes the first digit run
anywhere in the string, so `"abc12"` keys as 12 and sorts before the
numeric rank `"500"`; and the digit run is accumulated into a wrapping
32-bit `int`, so `"2200000000"` keys as the negative -2094967296 and
sorts first, not last. -/
theorem c7_sort_counterexample :
    (sortRows [{ rank := str "abc12" }, { rank := str "500" }]).map Row.rank =
      [str "abc12", str "500"] ∧
    rankKey (str "abc12") = 12 ∧ rankKey (str "abc12") ≠ 1000000000 ∧
    rankKey (str "2200000000") = -2094967296 ∧
    (sortRows [{ rank := str "1" }, { rank := str "2200000000" }]).map Row.rank =
      [str "2200000000", str "1"] := by decide

/-- C7 (amended): after loading, each board's rows are a permutation of
the populated rows sorted ascending by `rankKey`, where `rankKey`
accumulates the first digit run appearing anywhere in the rank into a
wrapping 32-bit signed `int` (no overflow detection) and is the
sentinel `1000000000` only when the rank contains no digit at all; in
particular the ranks `"10", "2", "abc", "1"` sort to
`"1", "2", "10", "abc"`. -/
theorem c7_sort_amended (rows : List Row) :
    List.Pairwise rowLE (sortRows rows) ∧ List.Perm (sortRows rows) rows ∧
    (sortRows [{ rank := str "10" }, { rank := str "2" },
               { rank := str "abc" }, { rank := str "1" }]).map Row.rank =
      [str "1", str "2", str "10", str "abc"] := by
  refine ⟨?_, ?_, by decide⟩
  · haveI : IsTotal Row rowLE := ⟨fun a b => Int.le_total _ _⟩
    haveI : IsTrans Row rowLE := ⟨fun _ _ _ => Int.le_trans⟩
    exact List.sorted_insertionSort rowLE rows
  · exact List.perm_insertionSort rowLE rows

/-- The board document of the C3 counterexample: a declared rank column
whose cell in a positional-array row is the empty string. -/
def c3Doc : JVal :=
  .jobj [(str "scoreboards", .jarr
    [.jobj [(str "columns", .jarr [.jstr (str "rank"), .jstr (str "name")]),
            (str "rows", .jarr [.jarr [.jstr [], .jstr (str "Alice")]])]])]

/-- C3 counterexample: loading a board whose single positional-array row
has an empty string in the resolved rank column succeeds and installs a
row whose `rank` is empty — no 1-based position is synthesized for this
shape, contradicting the claimed invariant. -/
theorem c3_rank_counterexample :
    ∃ st, loadGameModelS {} 0 0 (some []) (fun _ => some c3Doc) = (true, st) ∧
      st.boards.map (fun b => b.rows.map Row.rank) = [[[]]] := by
  refine ⟨_, rfl, by decide⟩

/-- C3 (amended): a row built from a keyed object always carries a
non-empty rank (synthesized as the 1-based position when nothing else
supplies one), as does a scalar row and a positional-array row with no
resolved rank column; only a positional-array row with a resolved rank
column can keep an empty rank (when its rank cell is empty). -/
theorem c3_rank_amended (cols : List Str) (rankIdx nameIdx : Int) (pos0 : Nat)
    (rv : JVal)
    (h : (∃ fields, rv = .jobj fields) ∨
         (∀ cells, rv ≠ .jarr cells) ∨ rankIdx < 0) :
    (makeRow cols rankIdx nameIdx pos0 rv).rank ≠ [] := by
  have hnat : ∀ n : Nat, natToStr n ≠ [] := by
    intro n
    unfold natToStr natToStrGo
    split
    · simp
    · simp
  have hif : ∀ d x : Str, d ≠ [] → (if x = [] then d else x) ≠ [] := by
    intro d x hd
    split
    · exact hd
    · assumption
  cases rv with
  | jobj fields =>
    exact hif _ _ (hnat _)
  | jarr cells =>
    rcases h with ⟨_, h'⟩ | h' | h'
    · exact absurd h' (by simp)
    · exact absurd rfl (h' cells)
    · unfold makeRow
      dsimp only
      rw [if_neg (by omega)]
      exact hnat _
  | jnull => exact hnat _
  | jstr s => exact hnat _
  | jnum n => exact hnat _
  | jbool b => exact hnat _

/-- C3 amended witness: a keyed-object row with no rank-like field gets
rank `"1"` at position 0. -/
theorem c3_rank_amended_witness :
    ((∃ fields, (JVal.jobj [(str "n", JVal.jstr (str "Bob"))]) = .jobj fields) ∨
      (∀ cells, (JVal.jobj [(str "n", JVal.jstr (str "Bob"))]) ≠ .jarr cells) ∨
      (-1 : Int) < 0) ∧
    (makeRow [] (-1) (-1) 0 (JVal.jobj [(str "n", JVal.jstr (str "Bob"))])).rank ≠ [] :=
  ⟨Or.inl ⟨_, rfl⟩,
   c3_rank_amended [] (-1) (-1) 0 _ (Or.inl ⟨_, rfl⟩)⟩

/-- A prior engine state holding an installed model, for claim C4. -/
def c4State : EngState :=
  { boards := [{ name := str "B", rows := [{ rank := str "1" }] }],
    curBoard := 0, gameTitle := str "Old" }

/-- C4 counterexample: a document that parses but carries no
`scoreboards` array makes `loadGameModel` fail — yet the previously
installed boards are cleared, the board cursor is reset to `-1` and the
game title is overwritten before the failure, so the engine state is not
left as it was. -/
theorem c4_load_counterexample :
    ∃ st, loadGameModelS c4State 7 0 (some (str "x"))
        (fun _ => some (.jobj [(str "game_title", .jstr (str "New"))])) = (false, st) ∧
      st ≠ c4State ∧ st.boards = [] ∧ st.curBoard = -1 ∧
      st.gameTitle = str "New" ∧ c4State.boards ≠ [] := by
  exact ⟨_, rfl, by decide, by decide, by decide, by decide, by decide⟩

/-- C4 (amended): a fetch failure or a parse failure leaves the engine
state exactly unchanged; any failure leaves `loaded`, `resolved` and the
title pool unchanged (so no new model is installed); but a document that
parses and then fails (no `scoreboards` array, or zero usable boards)
clears the previous boards, resets the board cursor to `-1`, and
replaces the game title with the document's `game_title`. -/
theorem c4_load_amended (s : EngState) (now rBoard : Nat) (fetchResp : Option Str)
    (parse : Str → Option JVal) :
    (loadGameModelS s now rBoard none parse = (false, s)) ∧
    (∀ body, fetchResp = some body → parse body = none →
      loadGameModelS s now rBoard fetchResp parse = (false, s)) ∧
    (∀ st, loadGameModelS s now rBoard fetchResp parse = (false, st) →
      st.loaded = s.loaded ∧ st.resolved = s.resolved ∧ st.titlePool = s.titlePool) ∧
    (∀ body doc st, fetchResp = some body → parse body = some doc →
      loadGameModelS s now rBoard fetchResp parse = (false, st) →
      st.boards = [] ∧ st.curBoard = -1 ∧
      st.gameTitle = j2s (objGet doc (str "game_title"))) := by
  refine ⟨rfl, ?_, ?_, ?_⟩
  · intro body hb hp
    subst hb
    simp only [loadGameModelS, hp]
  · intro st hst
    cases fetchResp with
    | none =>
      simp only [loadGameModelS] at hst
      cases hst
      exact ⟨rfl, rfl, rfl⟩
    | some body =>
      cases hp : parse body with
      | none =>
        simp only [loadGameModelS, hp] at hst
        cases hst
        exact ⟨rfl, rfl, rfl⟩
      | some doc =>
        simp only [loadGameModelS, hp] at hst
        split at hst
        · split at hst
          · cases hst
            exact ⟨rfl, rfl, rfl⟩
          · exact absurd (congrArg Prod.fst hst) (by simp)
        · cases hst
          exact ⟨rfl, rfl, rfl⟩
  · intro body doc st hb hp hst
    subst hb
    simp only [loadGameModelS, hp] at hst
    split at hst
    · split at hst
      · cases hst
        exact ⟨rfl, rfl, rfl⟩
      · exact absurd (congrArg Prod.fst hst) (by simp)
    · cases hst
      exact ⟨rfl, rfl, rfl⟩

/-- C4 amended witness: the fetch-failure case at a concrete state. -/
theorem c4_load_amended_witness :
    loadGameModelS c4State 7 0 none (fun _ => none) = (false, c4State) ∧
    ((str "deadbeef" : Option Str) = some (str "deadbeef")) :=
  ⟨(c4_load_amended c4State 7 0 none (fun _ => none)).1, rfl⟩

/-- A state mid-probe, for claim C5. -/
def c5State : EngState :=
  { base := str "http://a", probeList := [str "r1"], probeIdx := 1, nextProbeAt := 7 }

/-- C5 counterexample: `setServerBase` changes the configured base list
but resets none of the probing state — the candidate list, cursor and
next-eligible time all survive. -/
theorem c5_setServerBase_counterexample :
    (setServerBase c5State (str "http://b")).base = str "http://b" ∧
    (setServerBase c5State (str "http://b")).probeList = [str "r1"] ∧
    (setServerBase c5State (str "http://b")).probeIdx = 1 ∧
    (setServerBase c5State (str "http://b")).nextProbeAt = 7 := by decide

/-- C5 (amended): the probing state is reset whenever `onAppName`
changes the (trimmed) query — cursor and next-eligible time return to
zero and the candidate list is rebuilt (or left empty when the query is
empty, the network is down, or a WorkRoot exists) — but `setServerBase`
only records the new base list and resets nothing; the confirmed
WorkRoot survives even the `onAppName` reset (`resetRuntime` never
clears it), and once it is set `stepProbeWorkRoot` returns immediately
without touching the state or probing any candidate. -/
theorem c5_probe_reset_amended :
    (∀ s base, setServerBase s base = { s with base := base }) ∧
    (∀ s app net, trimEnds app ≠ s.curApp →
      (onAppName s app net).probeIdx = 0 ∧ (onAppName s app net).nextProbeAt = 0 ∧
      (onAppName s app net).workRoot = s.workRoot ∧
      (onAppName s app net).probeList =
        (if trimEnds app ≠ [] ∧ net = true ∧ s.workRoot = [] then
          buildCandidateRoots s.base else [])) ∧
    (∀ s now net cb nb p, s.workRoot ≠ [] →
      stepProbeWorkRoot s now net cb nb p = ⟨true, s, none⟩) := by
  refine ⟨fun s base => rfl, ?_, ?_⟩
  · intro s app net hne
    unfold onAppName
    rw [if_neg hne]
    by_cases ht : trimEnds app = []
    · rw [if_pos ht]
      simp [resetRuntime, ht]
    · rw [if_neg ht]
      cases net with
      | false => simp [resetRuntime, startProbingIfNeeded, ht]
      | true =>
        by_cases hw : s.workRoot = []
        · simp [resetRuntime, startProbingIfNeeded, ht, hw]
        · simp [resetRuntime, startProbingIfNeeded, ht, hw]
  · intro s now net cb nb p hw
    unfold stepProbeWorkRoot
    rw [if_pos hw]

/-- C5 amended witness: a fresh non-empty query resets the probe cursor. -/
theorem c5_probe_reset_amended_witness :
    trimEnds (str "Halo") ≠ (c5State).curApp ∧
    (onAppName c5State (str "Halo") true).probeIdx = 0 :=
  ⟨by decide, (c5_probe_reset_amended.2.1 c5State (str "Halo") true (by decide)).1⟩

/-- C8 counterexample: with the byte limit configured to 1 through
`setCacheLimits`, writing a 2-byte body reports success (the byte count
matched before pruning) but the prune pass evicts the freshly written
entry, so the immediate re-read fails instead of returning the body
fresh. -/
theorem c8_roundtrip_counterexample :
    (cacheWrite (setCacheLimits {} 32 1 3600000) (str "http://k") (str "ab") 5).1 = true ∧
    (cacheRead (cacheWrite (setCacheLimits {} 32 1 3600000)
        (str "http://k") (str "ab") 5).2
      (str "http://k") 60000 false 5).ok = false := by decide

/-- Every sanitized key lies under the cache directory. -/
theorem sanitizeKey_isCache (url : Str) (body : Str) (mt : Int) :
    isCacheFile ⟨sanitizeKey url, body, mt⟩ = true := by
  simp only [isCacheFile, sanitizeKey, decide_eq_true_eq]
  exact List.prefix_append _ _

/-- A file written at the current instant is not over-age. -/
theorem tooOldF_now (maxAgeMs : Nat) (now : Int) (p b : Str) :
    tooOldF maxAgeMs now ⟨p, b, now⟩ = false := by
  simp only [tooOldF]
  have hage : ageMs now now = 0 := by simp [ageMs]
  simp [hage]

/-- C8 (amended): the write-then-read round trip holds whenever the
written entry survives the prune pass — in particular when the cache
directory is otherwise empty, the body fits `maxBytes`, `maxFiles` is at
least 1, and the clock is running (`time()` and hence the stored mtime
are positive): then `cacheWrite` returns true and an immediate
`cacheRead` with any max-age ≥ 0 returns the identical body, reported
fresh. -/
theorem c8_cache_roundtrip_amended (s : CacheState) (url body : Str) (now : Int)
    (maxAge : Nat) (allowStale : Bool)
    (hready : s.fsReady = true) (hempty : s.files = [])
    (hbytes : body.length ≤ s.maxBytes) (hfiles : 1 ≤ s.maxFiles) (hnow : 0 < now) :
    (cacheWrite s url body now).1 = true ∧
    cacheRead (cacheWrite s url body now).2 url maxAge allowStale now =
      ⟨true, body, true⟩ := by
  have hfile : writeFile s.files (sanitizeKey url) body now =
      [⟨sanitizeKey url, body, now⟩] := by
    simp [writeFile, hempty]
  have hcnt : countCache [⟨sanitizeKey url, body, now⟩] = 1 := by
    simp [countCache, List.filter, sanitizeKey_isCache]
  have hbyt : bytesCache [⟨sanitizeKey url, body, now⟩] = body.length := by
    simp [bytesCache, List.filter, sanitizeKey_isCache]
  have hw : cacheWrite s url body now =
      (true, pruneCache { s with files := [⟨sanitizeKey url, body, now⟩] } now) := by
    unfold cacheWrite
    rw [if_neg (by simp [hready]), hfile]
  have hp : pruneCache { s with files := [⟨sanitizeKey url, body, now⟩] } now =
      { s with files := [⟨sanitizeKey url, body, now⟩] } := by
    unfold pruneCache
    rw [if_neg (by simp [hready])]
    have hfilter :
        ([⟨sanitizeKey url, body, now⟩] : List CFile).filter
          (fun f => ¬ (isCacheFile f ∧ tooOldF s.maxAgeMs now f)) =
        [⟨sanitizeKey url, body, now⟩] := by
      simp [List.filter, tooOldF_now]
    dsimp only
    rw [hfilter, if_pos]
    exact ⟨by rw [hcnt]; exact hfiles, by rw [hbyt]; exact hbytes⟩
  have hr : cacheRead { s with files := [⟨sanitizeKey url, body, now⟩] } url maxAge
      allowStale now = ⟨true, body, true⟩ := by
    unfold cacheRead
    rw [if_neg (by simp [hready])]
    have hage : ageMs now now = 0 := by simp [ageMs]
    simp [List.find?, hnow, hage]
  rw [hw]
  exact ⟨rfl, by rw [hp]; exact hr⟩

/-- C8 amended witness: default limits, an empty cache, and a 2-byte
body at time 5. -/
theorem c8_cache_roundtrip_amended_witness :
    ((({} : CacheState)).fsReady = true ∧ (({} : CacheState)).files = [] ∧
      (str "ab").length ≤ (({} : CacheState)).maxBytes ∧
      1 ≤ (({} : CacheState)).maxFiles ∧ (0 : Int) < 5) ∧
    cacheRead (cacheWrite {} (str "http://k") (str "ab") 5).2
      (str "http://k") 60000 false 5 = ⟨true, str "ab", true⟩ :=
  ⟨⟨rfl, rfl, by decide, by decide, by decide⟩,
    (c8_cache_roundtrip_amended {} (str "http://k") (str "ab") 5 60000 false
      rfl rfl (by decide) (by decide) (by decide)).2⟩

/-- In a path-nodup list, `find?` at a member's path returns that
member. -/
theorem find_path_eq :
    ∀ (fs : List CFile), (fs.map CFile.path).Nodup →
      ∀ {e : CFile}, e ∈ fs → fs.find? (fun f => f.path = e.path) = some e := by
  intro fs
  induction fs with
  | nil => intro _ e he; cases he
  | cons a tl ih =>
    intro hnd e he
    have hnd2 : a.path ∉ tl.map CFile.path ∧ (tl.map CFile.path).Nodup := by
      simpa using hnd
    by_cases hpa : a.path = e.path
    · have hae : a = e := by
        rcases List.mem_cons.mp he with h | h
        · exact h.symm
        · exact absurd (by rw [hpa]; exact List.mem_map_of_mem _ h) hnd2.1
      subst hae
      rw [List.find?_cons_of_pos _ (by simp)]
    · have hetl : e ∈ tl := by
        rcases List.mem_cons.mp he with h | h
        · exact absurd (by rw [h]) hpa
        · exact h
      rw [List.find?_cons_of_neg _ (by simp [hpa])]
      exact ih hnd2.2 hetl

/-- Removing a member's path from a path-nodup list yields the list
minus that member, up to permutation. -/
theorem perm_removeFile :
    ∀ (fs : List CFile), (fs.map CFile.path).Nodup →
      ∀ {e : CFile}, e ∈ fs → fs.Perm (e :: removeFile e.path fs) := by
  intro fs
  induction fs with
  | nil => intro _ e he; cases he
  | cons a tl ih =>
    intro hnd e he
    have hnd2 : a.path ∉ tl.map CFile.path ∧ (tl.map CFile.path).Nodup := by
      simpa using hnd
    by_cases hpa : a.path = e.path
    · have hae : a = e := by
        rcases List.mem_cons.mp he with h | h
        · exact h.symm
        · exact absurd (by rw [hpa]; exact List.mem_map_of_mem _ h) hnd2.1
      subst hae
      have hrm : removeFile a.path (a :: tl) = tl := by
        simp [removeFile, List.eraseP_cons]
      rw [hrm]
    · have hetl : e ∈ tl := by
        rcases List.mem_cons.mp he with h | h
        · exact absurd (by rw [h]) hpa
        · exact h
      have hrm : removeFile e.path (a :: tl) = a :: removeFile e.path tl := by
        simp [removeFile, List.eraseP_cons, hpa]
      rw [hrm]
      exact List.Perm.trans (List.Perm.cons a (ih hnd2.2 hetl)) (List.Perm.swap e a _)

/-- The bookkeeping facts of one eviction step: removing a cache entry
drops the directory count by one and the byte total by its size, keeps
paths nodup, and removes exactly that entry. -/
theorem evict_step {fs : List CFile} {e : CFile}
    (hnd : (fs.map CFile.path).Nodup) (he : e ∈ fs) (hc : isCacheFile e = true) :
    countCache fs = countCache (removeFile e.path fs) + 1 ∧
    bytesCache fs = bytesCache (removeFile e.path fs) + e.body.length ∧
    ((removeFile e.path fs).map CFile.path).Nodup ∧
    e ∉ removeFile e.path fs ∧
    (∀ f : CFile, f ∈ fs ↔ f = e ∨ f ∈ removeFile e.path fs) ∧
    fileSizeAt fs e.path = e.body.length := by
  have hperm : fs.Perm (e :: removeFile e.path fs) := perm_removeFile fs hnd he
  have hmap : (fs.map CFile.path).Perm
      (e.path :: (removeFile e.path fs).map CFile.path) := by
    simpa using hperm.map CFile.path
  have hnd2 : e.path ∉ (removeFile e.path fs).map CFile.path ∧
      ((removeFile e.path fs).map CFile.path).Nodup := by
    simpa using hmap.nodup_iff.mp hnd
  refine ⟨?_, ?_, hnd2.2, ?_, ?_, ?_⟩
  · unfold countCache
    rw [(hperm.filter isCacheFile).length_eq]
    simp [List.filter_cons, hc]
  · unfold bytesCache
    rw [List.Perm.sum_eq (((hperm.filter isCacheFile).map (fun f => f.body.length)))]
    simp [List.filter_cons, hc]
    omega
  · intro hmem
    exact hnd2.1 (List.mem_map_of_mem _ hmem)
  · intro f
    rw [hperm.mem_iff, List.mem_cons]
  · rw [fileSizeAt, find_path_eq fs hnd he]

/-- The eviction loop only ever removes files. -/
theorem evictLoop_subset (maxF maxB : Nat) :
    ∀ (entries fs : List CFile) (cnt byt : Nat) (f : CFile),
      f ∈ evictLoop maxF maxB entries fs cnt byt → f ∈ fs := by
  intro entries
  induction entries with
  | nil => intro fs cnt byt f h; simpa [evictLoop] using h
  | cons e rest ih =>
    intro fs cnt byt f h
    rw [evictLoop] at h
    split at h
    · exact h
    · dsimp only at h
      exact List.mem_of_mem_eraseP (ih _ _ _ f h)

/-- The eviction loop's contract: started on the mtime-sorted list of
the cache entries with accurate counters, it ends with the directory
within both limits, keeps paths nodup, and every entry it removed is at
most as new as every cache entry that survives. -/
theorem evictLoop_spec (maxF maxB : Nat) :
    ∀ (entries fs : List CFile) (cnt byt : Nat),
      (fs.map CFile.path).Nodup →
      (∀ e ∈ entries, e ∈ fs ∧ isCacheFile e = true) →
      ((entries.map CFile.path).Nodup) →
      (∀ f ∈ fs, isCacheFile f = true → f ∈ entries) →
      List.Pairwise mtimeLE entries →
      cnt = countCache fs → byt = bytesCache fs →
      countCache (evictLoop maxF maxB entries fs cnt byt) ≤ maxF ∧
      bytesCache (evictLoop maxF maxB entries fs cnt byt) ≤ maxB ∧
      ((evictLoop maxF maxB entries fs cnt byt).map CFile.path).Nodup ∧
      (∀ g ∈ fs, g ∉ evictLoop maxF maxB entries fs cnt byt →
        ∀ f ∈ evictLoop maxF maxB entries fs cnt byt, isCacheFile f = true →
          g.mtime ≤ f.mtime) := by
  intro entries
  induction entries with
  | nil =>
    intro fs cnt byt hnd hent hndent hcover hsort hcnt hbyt
    have hres : evictLoop maxF maxB [] fs cnt byt = fs := rfl
    have hfe : fs.filter isCacheFile = [] :=
      List.filter_eq_nil_iff.2 fun a ha hca => List.not_mem_nil a (hcover a ha hca)
    rw [hres]
    refine ⟨?_, ?_, hnd, ?_⟩
    · simp [countCache, hfe]
    · simp [bytesCache, hfe]
    · intro g hg hgn
      exact absurd hg hgn
  | cons e rest ih =>
    intro fs cnt byt hnd hent hndent hcover hsort hcnt hbyt
    rw [evictLoop]
    by_cases hlim : cnt ≤ maxF ∧ byt ≤ maxB
    · rw [if_pos hlim]
      exact ⟨hcnt ▸ hlim.1, hbyt ▸ hlim.2, hnd, fun g hg hgn => absurd hg hgn⟩
    · rw [if_neg hlim]
      dsimp only
      obtain ⟨he, hc⟩ := hent e (List.mem_cons_self e rest)
      obtain ⟨h1, h2, h3, h4, h5, h6⟩ := evict_step hnd he hc
      rw [h6]
      have hnd3 : e.path ∉ rest.map CFile.path ∧ (rest.map CFile.path).Nodup := by
        simpa using hndent
      have hent2 : ∀ e2 ∈ rest, e2 ∈ removeFile e.path fs ∧ isCacheFile e2 = true := by
        intro e2 he2
        obtain ⟨hin, hcc⟩ := hent e2 (List.mem_cons_of_mem _ he2)
        rcases (h5 e2).mp hin with heq | hin2
        · subst heq
          exact absurd (List.mem_map_of_mem CFile.path he2) hnd3.1
        · exact ⟨hin2, hcc⟩
      have hcover2 : ∀ f ∈ removeFile e.path fs, isCacheFile f = true → f ∈ rest := by
        intro f hf hcf
        have hffs : f ∈ fs := (h5 f).mpr (Or.inr hf)
        rcases List.mem_cons.mp (hcover f hffs hcf) with heq | hmem
        · exact absurd (heq ▸ hf) h4
        · exact hmem
      have hsort2 := (List.pairwise_cons.mp hsort).2
      have hhead := (List.pairwise_cons.mp hsort).1
      obtain ⟨g1, g2, g3, g4⟩ := ih (removeFile e.path fs) (cnt - 1) (byt - e.body.length)
        h3 hent2 hnd3.2 hcover2 hsort2 (by omega) (by omega)
      refine ⟨g1, g2, g3, ?_⟩
      intro g hg hgn f hf hcf
      rcases (h5 g).mp hg with heq | hg2
      · subst heq
        have hfrm : f ∈ removeFile g.path fs :=
          evictLoop_subset maxF maxB rest _ _ _ f hf
        exact hhead f (hcover2 f hfrm hcf)
      · exact g4 g hg2 hgn f hf hcf

/-- The fields of the cache state other than the file list are
untouched by pruning. -/
theorem pruneCache_fields (s : CacheState) (now : Int) :
    (pruneCache s now).fsReady = s.fsReady ∧
    (pruneCache s now).maxFiles = s.maxFiles ∧
    (pruneCache s now).maxBytes = s.maxBytes ∧
    (pruneCache s now).maxAgeMs = s.maxAgeMs := by
  rw [pruneCache]
  split
  · exact ⟨rfl, rfl, rfl, rfl⟩
  · dsimp only
    split
    · exact ⟨rfl, rfl, rfl, rfl⟩
    · exact ⟨rfl, rfl, rfl, rfl⟩

/-- The prune pass on a mounted, path-nodup filesystem leaves the cache
directory within both configured limits, keeps paths nodup, and any
entry that survived the age phase but was evicted by the limit phase is
at most as new (by mtime) as every surviving cache entry. -/
theorem pruneCache_spec (s : CacheState) (now : Int)
    (hready : s.fsReady = true)
    (hnd : (s.files.map CFile.path).Nodup) :
    countCache (pruneCache s now).files ≤ s.maxFiles ∧
    bytesCache (pruneCache s now).files ≤ s.maxBytes ∧
    ((pruneCache s now).files.map CFile.path).Nodup ∧
    (∀ g ∈ s.files.filter (fun f => ¬ (isCacheFile f ∧ tooOldF s.maxAgeMs now f)),
      g ∉ (pruneCache s now).files →
      ∀ f ∈ (pruneCache s now).files, isCacheFile f = true →
        g.mtime ≤ f.mtime) := by
  rw [pruneCache, if_neg (by simp [hready])]
  dsimp only
  have hnd1 : ((s.files.filter
      (fun f => ¬ (isCacheFile f ∧ tooOldF s.maxAgeMs now f))).map CFile.path).Nodup :=
    hnd.sublist ((List.filter_sublist _).map CFile.path)
  by_cases hlim :
      countCache (s.files.filter
        (fun f => ¬ (isCacheFile f ∧ tooOldF s.maxAgeMs now f))) ≤ s.maxFiles ∧
      bytesCache (s.files.filter
        (fun f => ¬ (isCacheFile f ∧ tooOldF s.maxAgeMs now f))) ≤ s.maxBytes
  · rw [if_pos hlim]
    dsimp only
    exact ⟨hlim.1, hlim.2, hnd1, fun g hg hgn => absurd hg hgn⟩
  · rw [if_neg hlim]
    dsimp only
    have hperm : List.Perm (sortByMtime ((s.files.filter
        (fun f => ¬ (isCacheFile f ∧ tooOldF s.maxAgeMs now f))).filter isCacheFile))
        ((s.files.filter
        (fun f => ¬ (isCacheFile f ∧ tooOldF s.maxAgeMs now f))).filter isCacheFile) :=
      List.perm_insertionSort mtimeLE _
    have hent : ∀ e ∈ sortByMtime ((s.files.filter
        (fun f => ¬ (isCacheFile f ∧ tooOldF s.maxAgeMs now f))).filter isCacheFile),
        e ∈ s.files.filter (fun f => ¬ (isCacheFile f ∧ tooOldF s.maxAgeMs now f)) ∧
        isCacheFile e = true := by
      intro e he
      have := hperm.subset he
      exact ⟨List.mem_of_mem_filter this, List.of_mem_filter this⟩
    have hndent : ((sortByMtime ((s.files.filter
        (fun f => ¬ (isCacheFile f ∧ tooOldF s.maxAgeMs now f))).filter
          isCacheFile)).map CFile.path).Nodup := by
      refine (List.Perm.nodup_iff (hperm.map CFile.path)).mpr ?_
      exact hnd1.sublist ((List.filter_sublist _).map CFile.path)
    have hcover : ∀ f ∈ s.files.filter
        (fun f => ¬ (isCacheFile f ∧ tooOldF s.maxAgeMs now f)),
        isCacheFile f = true →
        f ∈ sortByMtime ((s.files.filter
          (fun f => ¬ (isCacheFile f ∧ tooOldF s.maxAgeMs now f))).filter isCacheFile) := by
      intro f hf hcf
      exact hperm.symm.subset (List.mem_filter.mpr ⟨hf, hcf⟩)
    have hsorted : List.Pairwise mtimeLE (sortByMtime ((s.files.filter
        (fun f => ¬ (isCacheFile f ∧ tooOldF s.maxAgeMs now f))).filter isCacheFile)) := by
      haveI : IsTotal CFile mtimeLE := ⟨fun a b => Int.le_total _ _⟩
      haveI : IsTrans CFile mtimeLE := ⟨fun _ _ _ => Int.le_trans⟩
      exact List.sorted_insertionSort mtimeLE _
    obtain ⟨g1, g2, g3, g4⟩ := evictLoop_spec s.maxFiles s.maxBytes _ _ _ _
      hnd1 hent hndent hcover hsorted rfl rfl
    exact ⟨g1, g2, g3, g4⟩

/-- Writing a file keeps paths nodup: the previous entry at that path
is truncated away before the new one is appended. -/
theorem writeFile_nodup (fs : List CFile) (p body : Str) (now : Int)
    (hnd : (fs.map CFile.path).Nodup) :
    ((writeFile fs p body now).map CFile.path).Nodup := by
  have herased : ∀ f ∈ fs.eraseP (fun f => f.path = p), f.path ≠ p := by
    induction fs with
    | nil => intro f hf; cases hf
    | cons a tl ih =>
      have hnd2 : a.path ∉ tl.map CFile.path ∧ (tl.map CFile.path).Nodup := by
        simpa using hnd
      intro f hf
      by_cases hpa : a.path = p
      · have hftl : f ∈ tl := by
          rw [List.eraseP_cons] at hf
          simpa [hpa] using hf
        intro hfp
        exact hnd2.1 (by rw [hpa, ← hfp]; exact List.mem_map_of_mem _ hftl)
      · rw [List.eraseP_cons] at hf
        simp only [hpa, decide_False, cond_false] at hf
        rcases List.mem_cons.mp hf with heq | hf2
        · subst heq; exact hpa
        · exact ih hnd2.2 f hf2
  rw [writeFile, List.map_append]
  refine List.Nodup.append ?_ (by simp) ?_
  · exact hnd.sublist ((List.eraseP_sublist _).map CFile.path)
  · intro a ha hb
    have hap : a = p := by simpa using hb
    rcases List.mem_map.mp ha with ⟨f, hf, hfa⟩
    exact herased f hf (hfa.trans hap)

/-- The concrete cache state of the C9 witness: two cache entries of
mtimes 1 and 2 under a two-file limit. -/
def c9State : CacheState :=
  { files := [⟨str "/insig/a", str "aa", 1⟩, ⟨str "/insig/b", str "bb", 2⟩],
    fsReady := true, maxFiles := 2, maxBytes := 131072, maxAgeMs := 21600000 }

/-- C9 (confirmed): any cache write from a mounted filesystem with
distinct paths triggers a prune that leaves the cache-directory file
count within maxFiles and its byte total within maxBytes; the
filesystem stays mounted with the same limits and distinct paths (so
the guarantee persists over any sequence of writes); and the limit
phase evicts oldest-first: any entry surviving the age phase that is
evicted is at most as new (by mtime) as every surviving cache entry, so
the most recently written entries survive. -/
theorem c9_cache_eviction (s : CacheState) (url body : Str) (now : Int)
    (hready : s.fsReady = true)
    (hnd : (s.files.map CFile.path).Nodup) :
    countCache ((cacheWrite s url body now).2).files ≤ s.maxFiles ∧
    bytesCache ((cacheWrite s url body now).2).files ≤ s.maxBytes ∧
    (((cacheWrite s url body now).2).files.map CFile.path).Nodup ∧
    ((cacheWrite s url body now).2).fsReady = true ∧
    ((cacheWrite s url body now).2).maxFiles = s.maxFiles ∧
    ((cacheWrite s url body now).2).maxBytes = s.maxBytes ∧
    ((cacheWrite s url body now).2).maxAgeMs = s.maxAgeMs ∧
    (∀ g ∈ (writeFile s.files (sanitizeKey url) body now).filter
        (fun f => ¬ (isCacheFile f ∧ tooOldF s.maxAgeMs now f)),
      g ∉ ((cacheWrite s url body now).2).files →
      ∀ f ∈ ((cacheWrite s url body now).2).files, isCacheFile f = true →
        g.mtime ≤ f.mtime) := by
  have hw : (cacheWrite s url body now).2 =
      pruneCache { s with files := writeFile s.files (sanitizeKey url) body now } now := by
    rw [cacheWrite, if_neg (by simp [hready])]
  have hnd1 : (({ s with files := writeFile s.files (sanitizeKey url) body now }
      : CacheState).files.map CFile.path).Nodup :=
    writeFile_nodup s.files (sanitizeKey url) body now hnd
  have hsp := pruneCache_spec
    { s with files := writeFile s.files (sanitizeKey url) body now } now hready hnd1
  have hfields := pruneCache_fields
    { s with files := writeFile s.files (sanitizeKey url) body now } now
  rw [hw]
  exact ⟨hsp.1, hsp.2.1, hsp.2.2.1, hfields.1.trans hready, hfields.2.1,
    hfields.2.2.1, hfields.2.2.2, hsp.2.2.2⟩

/-- C9 witness: writing a third entry into a two-entry cache limited to
two files keeps the directory within both limits. -/
theorem c9_cache_eviction_witness :
    (c9State.fsReady = true ∧ (c9State.files.map CFile.path).Nodup) ∧
    countCache ((cacheWrite c9State (str "http://u") (str "cc") 3).2).files ≤
      c9State.maxFiles ∧
    bytesCache ((cacheWrite c9State (str "http://u") (str "cc") 3).2).files ≤
      c9State.maxBytes :=
  ⟨⟨rfl, by decide⟩,
    (c9_cache_eviction c9State (str "http://u") (str "cc") 3 rfl (by decide)).1,
    (c9_cache_eviction c9State (str "http://u") (str "cc") 3 rfl (by decide)).2.1⟩

/-- Token-overlap scores are capped at 60. -/
theorem tokenOverlapScore_le (q c : List Str) : tokenOverlapScore q c ≤ 60 := by
  unfold tokenOverlapScore
  split
  · omega
  · exact min_le_right _ _

/-- The first-token boost is at most 25. -/
theorem firstTokenBoost_le (q c : List Str) : firstTokenBoost q c ≤ 25 := by
  unfold firstTokenBoost
  split
  · omega
  · split <;> omega

/-- Bigram-Jaccard scores are capped at 70. -/
theorem bigramJaccardScore_le (a b : Str) : bigramJaccardScore a b ≤ 70 := by
  unfold bigramJaccardScore
  split
  · omega
  · dsimp only
    split
    · omega
    · exact min_le_right _ _

/-- Containment bonuses are at most 25. -/
theorem containsBonus_le (small big : Str) : containsBonus small big ≤ 25 := by
  unfold containsBonus
  split
  · omega
  · split
    · split
      · omega
      · split
        · omega
        · split <;> omega
    · omega

/-- The short-candidate penalty never increases a score. -/
theorem tokenJaccardPenaltyShort_nonpos (s : Str) : tokenJaccardPenaltyShort s ≤ 0 := by
  unfold tokenJaccardPenaltyShort
  split <;> omega

/-- No entry ever scores above 100: the exact-name tier is the unique
maximum, every other tier is below it, and the composite branch is
bounded by 60 + 25 = 85. -/
theorem scoreEntry_fst_le (q : Str) (e : SEntry) : (scoreEntry q e).1 ≤ 100 := by
  have h1 := tokenOverlapScore_le (tokenize q) (tokenize e.name)
  have h2 := tokenOverlapScore_le (tokenize q) (tokenize e.slug)
  have h3 := firstTokenBoost_le (tokenize q) (tokenize e.name)
  have h4 := firstTokenBoost_le (tokenize q) (tokenize e.slug)
  have h5 := bigramJaccardScore_le (normKey q) (normKey e.name)
  have h6 := bigramJaccardScore_le (normKey q) (normKey e.slug)
  have h7 := containsBonus_le (normKey q) (normKey e.name)
  have h8 := containsBonus_le (normKey q) (normKey e.slug)
  have h9 := containsBonus_le (normKey e.name) (normKey q)
  have h10 := containsBonus_le (normKey e.slug) (normKey q)
  have h11 := tokenJaccardPenaltyShort_nonpos (normKey e.name)
  rw [scoreEntry]
  split
  · split
    · norm_num
    · split
      · norm_num
      · split
        · norm_num
        · split
          · norm_num
          · split
            · norm_num
            · dsimp only
              repeat' split
              all_goals omega
  · norm_num

/-- The designated best record of an exact-name match. -/
def bestOf (e : SEntry) : Best :=
  { id := e.title_id, name := e.name, nlc := e.name_lc, slug := e.slug,
    score := 100, reason := str "exact name", fam := famOf e }

/-- `tokenize` only depends on the lower-cased input. -/
theorem tokenize_congr_lc (a b : Str) (h : lc a = lc b) : tokenize a = tokenize b := by
  unfold tokenize
  rw [h]

/-- An exact case-insensitive name match scores exactly 100 with reason
`"exact name"`: the first tier fires, and the hard gate passes because
the candidate's tokens coincide with the (non-empty) query tokens. -/
theorem scoreEntry_exact (q : Str) (e : SEntry) (hq : tokenize q ≠ [])
    (hname : lc e.name = lc q) : scoreEntry q e = (100, str "exact name") := by
  have htok : tokenize e.name = tokenize q := tokenize_congr_lc _ _ hname
  obtain ⟨t, ts, hts⟩ : ∃ t ts, tokenize q = t :: ts := by
    cases h : tokenize q with
    | nil => exact absurd h hq
    | cons t ts => exact ⟨t, ts, rfl⟩
  have hover : (tokenize q).any
      (fun q' => (tokenize e.name).contains q' ∨ (tokenize e.slug).contains q') = true := by
    refine List.any_eq_true.2 ⟨t, by rw [hts]; exact List.mem_cons_self t ts, ?_⟩
    have hmem : t ∈ tokenize e.name := by
      rw [htok, hts]
      exact List.mem_cons_self t ts
    simp [hmem]
  unfold scoreEntry
  dsimp only
  rw [if_pos (Or.inl ⟨hq, hover⟩), if_pos hname]

/-- Folding the exact-match entry into any accumulator that is sound so
far (score within bounds, and equal to the designated best whenever it
already scores 100) yields the designated best. -/
theorem matchStep_exact (q : Str) (e : SEntry) (A : Best)
    (hq : tokenize q ≠ []) (hname : lc e.name = lc q)
    (hA : A.score ≤ 100) (hA100 : A.score = 100 → A = bestOf e) :
    matchStep q A e = bestOf e := by
  have hsc := scoreEntry_exact q e hq hname
  unfold matchStep
  rw [hsc]
  dsimp only
  by_cases h100 : A.score = 100
  · rw [hA100 h100]
    split
    · rfl
    · rfl
  · have hlt : A.score < 100 := lt_of_le_of_ne hA h100
    have hbt : betterThan q A 100 (normKey e.name) (tokenize e.name) e.name = true := by
      unfold betterThan
      rw [if_pos hlt]
    rw [if_pos ⟨by norm_num [MIN_ACCEPT_SCORE], Or.inr hbt⟩]
    rfl

/-- Once the designated best with a non-empty id is the accumulator, a
further entry leaves it in place: an entry scoring 100 is the
exact-match entry itself, and anything scoring less loses `betterThan`
against a score of 100. -/
theorem matchStep_keep (q : Str) (e e' : SEntry)
    (hq : tokenize q ≠ []) (hname : lc e.name = lc q) (hid : e.title_id ≠ [])
    (hne : (scoreEntry q e').1 = 100 → e' = e) :
    matchStep q (bestOf e) e' = bestOf e := by
  by_cases h100 : (scoreEntry q e').1 = 100
  · have he' := hne h100
    subst he'
    exact matchStep_exact q e' (bestOf e') hq hname (by norm_num [bestOf]) (fun _ => rfl)
  · have hle := scoreEntry_fst_le q e'
    have hlt : (scoreEntry q e').1 < 100 := lt_of_le_of_ne hle h100
    have hsc : (bestOf e).score = 100 := rfl
    have hbt : betterThan q (bestOf e) (scoreEntry q e').1 (normKey e'.name)
        (tokenize e'.name) e'.name = false := by
      unfold betterThan
      rw [if_neg (by rw [hsc]; omega), if_pos (by rw [hsc]; omega)]
    unfold matchStep
    dsimp only
    rw [if_neg]
    rintro ⟨-, h | h⟩
    · exact hid h
    · rw [hbt] at h
      exact Bool.false_ne_true h

/-- Soundness of a running accumulator for claim C1. -/
def goodAcc (q : Str) (e : SEntry) (A : Best) : Prop :=
  A.score ≤ 100 ∧ (A.score = 100 → A = bestOf e)

/-- One fold step preserves accumulator soundness. -/
theorem matchStep_good (q : Str) (e e' : SEntry) (A : Best)
    (hq : tokenize q ≠ []) (hname : lc e.name = lc q)
    (hne : (scoreEntry q e').1 = 100 → e' = e)
    (hA : goodAcc q e A) : goodAcc q e (matchStep q A e') := by
  by_cases h100 : (scoreEntry q e').1 = 100
  · have he' := hne h100
    subst he'
    rw [matchStep_exact q e' A hq hname hA.1 hA.2]
    exact ⟨by norm_num [bestOf], fun _ => rfl⟩
  · unfold matchStep
    dsimp only
    split
    · exact ⟨scoreEntry_fst_le q e', fun hc => absurd hc h100⟩
    · exact hA

/-- Fold soundness over a prefix of the index. -/
theorem foldl_good (q : Str) (e : SEntry) (hq : tokenize q ≠ [])
    (hname : lc e.name = lc q) :
    ∀ (l : List SEntry) (A : Best),
      (∀ e' ∈ l, (scoreEntry q e').1 = 100 → e' = e) →
      goodAcc q e A → goodAcc q e (List.foldl (matchStep q) A l)
  | [], _, _, hA => hA
  | e' :: l, A, h, hA => by
    rw [List.foldl_cons]
    exact foldl_good q e hq hname l _ (fun x hx => h x (List.mem_cons_of_mem _ hx))
      (matchStep_good q e e' A hq hname (h e' (List.mem_cons_self _ _)) hA)

/-- The designated best survives the rest of the fold. -/
theorem foldl_keep (q : Str) (e : SEntry) (hq : tokenize q ≠ [])
    (hname : lc e.name = lc q) (hid : e.title_id ≠ []) :
    ∀ l : List SEntry, (∀ e' ∈ l, (scoreEntry q e').1 = 100 → e' = e) →
      List.foldl (matchStep q) (bestOf e) l = bestOf e
  | [], _ => rfl
  | e' :: l, h => by
    rw [List.foldl_cons,
      matchStep_keep q e e' hq hname hid (h e' (List.mem_cons_self _ _))]
    exact foldl_keep q e hq hname hid l (fun x hx => h x (List.mem_cons_of_mem _ hx))

/-- C1 (confirmed): an index entry whose name equals the query up to
ASCII case scores exactly 100, and — provided the query normalises to
something non-empty (the caller's guard), the entry's id is non-empty,
and no other entry also scores 100 — pass 1 selects exactly that entry
as the best match. -/
theorem c1_exact_name_best (q : Str) (idx : List SEntry) (e : SEntry)
    (hqn : normKey q ≠ []) (he : e ∈ idx) (hid : e.title_id ≠ [])
    (hname : lc e.name = lc q)
    (huniq : ∀ e' ∈ idx, (scoreEntry q e').1 = 100 → e' = e) :
    (scoreEntry q e).1 = 100 ∧ matchBest q idx = some (bestOf e) := by
  have hq : tokenize q ≠ [] := by
    intro h
    exact hqn (by unfold normKey; rw [h]; rfl)
  have hsc := scoreEntry_exact q e hq hname
  refine ⟨by rw [hsc], ?_⟩
  obtain ⟨l1, l2, rfl⟩ := List.append_of_mem he
  have h1 : ∀ e' ∈ l1, (scoreEntry q e').1 = 100 → e' = e :=
    fun e' hx => huniq e' (List.mem_append_left _ hx)
  have h2 : ∀ e' ∈ l2, (scoreEntry q e').1 = 100 → e' = e :=
    fun e' hx => huniq e' (List.mem_append_right _ (List.mem_cons_of_mem _ hx))
  have hacc : goodAcc q e (List.foldl (matchStep q) {} l1) :=
    foldl_good q e hq hname l1 {} h1 ⟨by norm_num, by intro h; exact absurd h (by norm_num)⟩
  unfold matchBest
  rw [List.foldl_append, List.foldl_cons,
    matchStep_exact q e _ hq hname hacc.1 hacc.2,
    foldl_keep q e hq hname hid l2 h2]
  rw [if_neg]
  rintro (h | h)
  · exact hid h
  · norm_num [bestOf, MIN_ACCEPT_SCORE] at h

/-- C1 witness: the singleton index `[{id A, name foo}]` with query
`"Foo"`. -/
theorem c1_exact_name_best_witness :
    (normKey (str "Foo") ≠ [] ∧
      (⟨str "A", str "foo", [], []⟩ : SEntry) ∈ [(⟨str "A", str "foo", [], []⟩ : SEntry)] ∧
      (str "A" : Str) ≠ [] ∧ lc (str "foo") = lc (str "Foo")) ∧
    matchBest (str "Foo") [⟨str "A", str "foo", [], []⟩] =
      some (bestOf ⟨str "A", str "foo", [], []⟩) :=
  ⟨⟨by decide, by decide, by decide, by decide⟩,
    (c1_exact_name_best (str "Foo") [⟨str "A", str "foo", [], []⟩]
      ⟨str "A", str "foo", [], []⟩ (by decide) (by decide) (by decide) (by decide)
      (by decide)).2⟩

/-- A lower-case alphanumeric character is not a space. -/
theorem lowerAlnum_ne_space (c : Char) (h : isLowerAlnum c = true) : c ≠ ' ' := by
  rintro rfl
  simp [isLowerAlnum] at h

/-- A lower-case alphanumeric character is not in the `A`–`Z` range. -/
theorem lowerAlnum_not_upper (c : Char) (h : isLowerAlnum c = true) :
    ¬ ('A' ≤ c ∧ c ≤ 'Z') := by
  simp only [isLowerAlnum, Bool.or_eq_true, decide_eq_true_eq] at h
  rintro ⟨h1, h2⟩
  rcases h with ⟨ha, hz⟩ | ⟨h0, h9⟩
  · exact absurd ha (not_le.2 (lt_of_le_of_lt h2 (by decide)))
  · exact absurd h1 (not_le.2 (lt_of_le_of_lt h9 (by decide)))

/-- A space is not in the `A`–`Z` range. -/
theorem space_not_upper : ¬ ('A' ≤ ' ' ∧ ' ' ≤ 'Z') := by decide

/-- Every character the ASCII fold emits is lower-case alphanumeric or a
space. -/
theorem fold_chars (s : Str) : ∀ c ∈ asciiFoldKeepSpace s, isLowerAlnum c = true ∨ c = ' ' := by
  induction s with
  | nil => intro c hc; simp [asciiFoldKeepSpace] at hc
  | cons a as ih =>
    intro c hc
    simp only [asciiFoldKeepSpace] at hc
    revert hc
    generalize (if 'A' ≤ a ∧ a ≤ 'Z' then Char.ofNat (a.toNat - 65 + 97) else a) = c'
    intro hc
    split at hc
    next h =>
      rcases List.mem_cons.1 hc with rfl | hmem
      · exact h
      · exact ih c hmem
    next =>
      split at hc
      next =>
        rcases List.mem_append.1 hc with hl | hr
        · have hand : str " and " = [' ', 'a', 'n', 'd', ' '] := rfl
          rw [hand] at hl
          simp only [List.mem_cons, List.mem_singleton, List.not_mem_nil, or_false] at hl
          rcases hl with rfl | rfl | rfl | rfl | rfl
          · exact Or.inr rfl
          · exact Or.inl (by decide)
          · exact Or.inl (by decide)
          · exact Or.inl (by decide)
          · exact Or.inr rfl
        · exact ih c hr
      next =>
        rcases List.mem_cons.1 hc with rfl | hmem
        · exact Or.inr rfl
        · exact ih c hmem

/-- Space-collapsing only emits characters of its input. -/
theorem collapse_sub (s : Str) : ∀ (b : Bool), ∀ c ∈ collapseSpaces s b, c ∈ s := by
  induction s with
  | nil => intro b c hc; simp [collapseSpaces] at hc
  | cons a as ih =>
    intro b c hc
    rw [collapseSpaces] at hc
    split at hc
    next ha =>
      rcases List.mem_append.1 hc with hl | hr
      · split at hl
        · simp at hl
        · rcases List.mem_singleton.1 hl with rfl
          exact List.mem_cons.2 (Or.inl ha.symm)
      · exact List.mem_cons_of_mem _ (ih true c hr)
    next =>
      rcases List.mem_cons.1 hc with rfl | hmem
      · exact List.mem_cons_self _ _
      · exact List.mem_cons_of_mem _ (ih false c hmem)

/-- Trimming only keeps characters of its input. -/
theorem trimEnds_sub (s : Str) : ∀ c ∈ trimEnds s, c ∈ s := by
  intro c hc
  unfold trimEnds at hc
  rw [List.mem_reverse] at hc
  have h1 := (List.dropWhile_sublist (l := (s.dropWhile (· = ' ')).reverse) (· = ' ')).subset hc
  rw [List.mem_reverse] at h1
  exact (List.dropWhile_sublist (· = ' ')).subset h1

/-- Squeezing only keeps characters of its input. -/
theorem squeeze_sub (s : Str) : ∀ c ∈ squeezeSpace s, c ∈ s := by
  intro c hc
  exact collapse_sub s false c (trimEnds_sub _ c hc)

/-- Characters of a `splitOn ' '` piece come from the input and are not
spaces. -/
theorem splitOnP_space_sub (s : Str) :
    ∀ t ∈ s.splitOnP (fun c => c == ' '), ∀ c ∈ t, c ∈ s ∧ c ≠ ' ' := by
  induction s with
  | nil =>
    intro t ht c hc
    rw [List.splitOnP_nil] at ht
    rcases List.mem_singleton.1 ht with rfl
    simp at hc
  | cons a as ih =>
    intro t ht c hc
    rw [List.splitOnP_cons] at ht
    by_cases ha : a = ' '
    · rw [if_pos (by simp [ha])] at ht
      rcases List.mem_cons.1 ht with rfl | hmem
      · simp at hc
      · obtain ⟨h1, h2⟩ := ih t hmem c hc
        exact ⟨List.mem_cons_of_mem _ h1, h2⟩
    · rw [if_neg (by simp [ha])] at ht
      cases hsp : as.splitOnP (fun c => c == ' ') with
      | nil => exact absurd hsp (List.splitOnP_ne_nil _ as)
      | cons h0 rest =>
        rw [hsp, List.modifyHead] at ht
        rcases List.mem_cons.1 ht with rfl | hmem
        · rcases List.mem_cons.1 hc with rfl | hmem'
          · exact ⟨List.mem_cons_self _ _, ha⟩
          · obtain ⟨h1, h2⟩ := ih h0 (by rw [hsp]; exact List.mem_cons_self _ _) c hmem'
            exact ⟨List.mem_cons_of_mem _ h1, h2⟩
        · obtain ⟨h1, h2⟩ := ih t (by rw [hsp]; exact List.mem_cons_of_mem _ hmem) c hc
          exact ⟨List.mem_cons_of_mem _ h1, h2⟩

/-- `splitOn ' '` pieces: characters come from the input and are never
spaces. -/
theorem splitOn_space_sub (s : Str) : ∀ t ∈ s.splitOn ' ', ∀ c ∈ t, c ∈ s ∧ c ≠ ' ' := by
  intro t ht
  rw [List.splitOn] at ht
  exact splitOnP_space_sub s t ht

/-- Tokens produced by the whitespace split are non-empty, space-free,
and drawn from the input characters. -/
theorem splitTokens_mem (s : Str) : ∀ t ∈ splitTokens s, t ≠ [] ∧ ∀ c ∈ t, c ∈ s ∧ c ≠ ' ' := by
  intro t ht
  unfold splitTokens at ht
  obtain ⟨hmem, hne⟩ := List.mem_filter.1 ht
  exact ⟨by simpa using hne, splitOn_space_sub s t hmem⟩

/-- Decimal renderings are never empty. -/
theorem natToStr_ne_nil (n : Nat) : natToStr n ≠ [] := by
  unfold natToStr natToStrGo
  split
  · simp
  · simp

/-- Digits of small decimal renderings are lower-case alphanumerics. -/
theorem natToStr_small_chars (k : Nat) (h1 : 0 < k) (h2 : k ≤ 10) :
    ∀ c ∈ natToStr k, isLowerAlnum c = true := by
  interval_cases k <;> decide

/-- `romanToInt` returns `-1` or a value in `1..10`. -/
theorem romanToInt_range (t : Str) :
    romanToInt t = -1 ∨ (1 ≤ romanToInt t ∧ romanToInt t ≤ 10) := by
  simp only [romanToInt]
  split_ifs <;> norm_num

/-- The Roman-numeral rewrite is idempotent: converted tokens are digit
strings `"1"`–`"10"`, which are themselves not Roman numerals. -/
theorem romanFix_idem (t : Str) : romanFix (romanFix t) = romanFix t := by
  by_cases h : 0 < romanToInt t
  · have hfix : romanFix t = natToStr (romanToInt t).toNat := by
      unfold romanFix
      rw [if_pos h]
    rw [hfix]
    rcases romanToInt_range t with hr | ⟨hr1, hr2⟩
    · omega
    · have h10 : (romanToInt t).toNat = 1 ∨ (romanToInt t).toNat = 2 ∨
          (romanToInt t).toNat = 3 ∨ (romanToInt t).toNat = 4 ∨
          (romanToInt t).toNat = 5 ∨ (romanToInt t).toNat = 6 ∨
          (romanToInt t).toNat = 7 ∨ (romanToInt t).toNat = 8 ∨
          (romanToInt t).toNat = 9 ∨ (romanToInt t).toNat = 10 := by omega
      rcases h10 with h'|h'|h'|h'|h'|h'|h'|h'|h'|h' <;> rw [h'] <;> decide
  · unfold romanFix
    rw [if_neg h, if_neg h]

/-- Every token `tokenize` produces is non-empty and consists of
lower-case alphanumerics. -/
theorem tokenize_token_facts (x : Str) :
    ∀ t ∈ tokenize x, t ≠ [] ∧ ∀ c ∈ t, isLowerAlnum c = true := by
  intro t ht
  unfold tokenize at ht
  obtain ⟨t', ht', rfl⟩ := List.mem_map.1 ht
  obtain ⟨hne, hch⟩ := splitTokens_mem _ t' ht'
  unfold romanFix
  by_cases h : 0 < romanToInt t'
  · rw [if_pos h]
    refine ⟨natToStr_ne_nil _, ?_⟩
    rcases romanToInt_range t' with hr | ⟨hr1, hr2⟩
    · omega
    · exact natToStr_small_chars _ (by omega) (by omega)
  · rw [if_neg h]
    refine ⟨hne, fun c hc => ?_⟩
    obtain ⟨hmem, hsp⟩ := hch c hc
    rcases fold_chars _ c (squeeze_sub _ c hmem) with h' | h'
    · exact h'
    · exact absurd h' hsp

/-- Joining no tokens yields the empty string. -/
theorem joinToks_nil : joinToks [] = [] := rfl

/-- Joining a single token yields the token. -/
theorem joinToks_single (t : Str) : joinToks [t] = t := by
  simp [joinToks, List.intercalate, List.intersperse]

/-- Joining at least two tokens: head token, a space, the rest. -/
theorem joinToks_cons (t u : Str) (ts : List Str) :
    joinToks (t :: u :: ts) = t ++ ' ' :: joinToks (u :: ts) := by
  simp [joinToks, List.intercalate, List.intersperse]

/-- A join headed by a non-empty token is non-empty. -/
theorem joinToks_ne_nil (t : Str) (ts : List Str) (h : t ≠ []) :
    joinToks (t :: ts) ≠ [] := by
  cases ts with
  | nil => rw [joinToks_single]; exact h
  | cons u ts => rw [joinToks_cons]; simp [h]

/-- Every character of a join is a token character or the separator. -/
theorem joinToks_chars : ∀ (T : List Str) (c : Char), c ∈ joinToks T →
    (∃ t ∈ T, c ∈ t) ∨ c = ' '
  | [], c, hc => by rw [joinToks_nil] at hc; simp at hc
  | [t], c, hc => by
    rw [joinToks_single] at hc
    exact Or.inl ⟨t, List.mem_singleton_self t, hc⟩
  | t :: u :: ts, c, hc => by
    rw [joinToks_cons] at hc
    rcases List.mem_append.1 hc with h | h
    · exact Or.inl ⟨t, List.mem_cons_self _ _, h⟩
    · rcases List.mem_cons.1 h with h' | h'
      · exact Or.inr h'
      · rcases joinToks_chars (u :: ts) c h' with ⟨t', ht', hct⟩ | h''
        · exact Or.inl ⟨t', List.mem_cons_of_mem _ ht', hct⟩
        · exact Or.inr h''

/-- The head character of a join is the head token's head character. -/
theorem joinToks_head (t : Str) (ts : List Str) (h : t ≠ []) :
    (joinToks (t :: ts)).head? = t.head? := by
  cases ts with
  | nil => rw [joinToks_single]
  | cons u ts =>
    rw [joinToks_cons]
    cases t with
    | nil => exact absurd rfl h
    | cons a t1 => rfl

/-- A `getLast?` value is a member of the list. -/
theorem getLast?_mem_list (l : List Char) (a : Char) (h : l.getLast? = some a) : a ∈ l := by
  obtain ⟨hne, hx⟩ := List.mem_getLast?_eq_getLast (show a ∈ l.getLast? from h)
  rw [hx]
  exact List.getLast_mem hne

/-- The last character of a join of non-empty space-free tokens is not a
space. -/
theorem joinToks_last_ne_space :
    ∀ T : List Str, (∀ t ∈ T, t ≠ [] ∧ ∀ c ∈ t, c ≠ ' ') →
      (joinToks T).getLast? ≠ some ' '
  | [], _ => by rw [joinToks_nil]; simp
  | [t], hT => by
    rw [joinToks_single]
    intro hc
    exact (hT t (List.mem_singleton_self t)).2 ' ' (getLast?_mem_list _ _ hc) rfl
  | t :: u :: ts, hT => by
    rw [joinToks_cons]
    have hu : joinToks (u :: ts) ≠ [] :=
      joinToks_ne_nil u ts (hT u (List.mem_cons_of_mem _ (List.mem_cons_self _ _))).1
    obtain ⟨b, w, hbw⟩ : ∃ b w, joinToks (u :: ts) = b :: w := by
      cases hj : joinToks (u :: ts) with
      | nil => exact absurd hj hu
      | cons b w => exact ⟨b, w, rfl⟩
    rw [hbw, List.getLast?_append]
    have hrec := joinToks_last_ne_space (u :: ts)
      (fun x hx => hT x (List.mem_cons_of_mem _ hx))
    rw [hbw] at hrec
    have hlast : (' ' :: b :: w).getLast? = (b :: w).getLast? := List.getLast?_cons_cons
    rw [hlast]
    obtain ⟨d, hd⟩ : ∃ d, (b :: w).getLast? = some d := by
      cases hg : (b :: w).getLast? with
      | none =>
        have h2 := List.getLast?_eq_getLast_of_ne_nil (List.cons_ne_nil b w)
        rw [hg] at h2
        exact absurd h2 (by simp)
      | some d => exact ⟨d, rfl⟩
    rw [hd]
    rw [hd] at hrec
    simpa [Option.or] using hrec

/-- Lower-casing fixes a string with no upper-case characters. -/
theorem lc_fix (s : Str) (h : ∀ c ∈ s, ¬ ('A' ≤ c ∧ c ≤ 'Z')) : lc s = s := by
  induction s with
  | nil => rfl
  | cons a as ih =>
    have ha : lcChar a = a := by
      unfold lcChar
      rw [if_neg (h a (List.mem_cons_self _ _))]
    show lcChar a :: lc as = a :: as
    rw [ha, ih (fun c hc => h c (List.mem_cons_of_mem _ hc))]

/-- The ASCII fold fixes a string of lower-case alphanumerics and
spaces. -/
theorem fold_fix (s : Str) (h : ∀ c ∈ s, isLowerAlnum c = true ∨ c = ' ') :
    asciiFoldKeepSpace s = s := by
  induction s with
  | nil => rfl
  | cons a as ih =>
    have ha := h a (List.mem_cons_self _ _)
    have hup : ¬ ('A' ≤ a ∧ a ≤ 'Z') := by
      rcases ha with h' | rfl
      · exact lowerAlnum_not_upper a h'
      · exact space_not_upper
    rw [asciiFoldKeepSpace]
    rw [if_neg hup, if_pos ha, ih (fun c hc => h c (List.mem_cons_of_mem _ hc))]

/-- Collapsing passes an initial space-free segment through unchanged. -/
theorem collapse_token (t : Str) (s : Str) (h : ∀ c ∈ t, c ≠ ' ') :
    collapseSpaces (t ++ s) false = t ++ collapseSpaces s false := by
  induction t with
  | nil => rfl
  | cons a t1 ih =>
    rw [List.cons_append, collapseSpaces,
      if_neg (h a (List.mem_cons_self _ _)),
      ih (fun c hc => h c (List.mem_cons_of_mem _ hc))]
    rfl

/-- Collapsing a string with a non-space head ignores the incoming
flag. -/
theorem collapse_head_nonspace (c : Char) (w : Str) (b : Bool) (h : c ≠ ' ') :
    collapseSpaces (c :: w) b = c :: collapseSpaces w false := by
  rw [collapseSpaces, if_neg h]

/-- Collapsing fixes a join of non-empty space-free tokens. -/
theorem collapse_join :
    ∀ T : List Str, (∀ t ∈ T, t ≠ [] ∧ ∀ c ∈ t, c ≠ ' ') →
      collapseSpaces (joinToks T) false = joinToks T
  | [], _ => rfl
  | [t], hT => by
    rw [joinToks_single]
    have h1 := collapse_token t [] (hT t (List.mem_singleton_self t)).2
    simpa [collapseSpaces] using h1
  | t :: u :: ts, hT => by
    rw [joinToks_cons, collapse_token t _ (hT t (List.mem_cons_self _ _)).2]
    obtain ⟨hu, hus⟩ := hT u (List.mem_cons_of_mem _ (List.mem_cons_self _ _))
    obtain ⟨a, u1, rfl⟩ : ∃ a u1, u = a :: u1 := by
      cases u with
      | nil => exact absurd rfl hu
      | cons a u1 => exact ⟨a, u1, rfl⟩
    obtain ⟨w, hw⟩ : ∃ w, joinToks ((a :: u1) :: ts) = a :: w := by
      cases ts with
      | nil => exact ⟨u1, joinToks_single _⟩
      | cons v ts' => exact ⟨u1 ++ ' ' :: joinToks (v :: ts'), by rw [joinToks_cons]; rfl⟩
    have hrest := collapse_join ((a :: u1) :: ts)
      (fun x hx => hT x (List.mem_cons_of_mem _ hx))
    rw [collapseSpaces, if_pos rfl, hw,
      collapse_head_nonspace a w true (hus a (List.mem_cons_self _ _)),
      ← collapse_head_nonspace a w false (hus a (List.mem_cons_self _ _)), ← hw, hrest]
    rfl

/-- Trimming fixes a string with non-space first and last characters. -/
theorem trimEnds_fix (s : Str) (h1 : s.head? ≠ some ' ') (h2 : s.getLast? ≠ some ' ') :
    trimEnds s = s := by
  unfold trimEnds
  have hd : s.dropWhile (· = ' ') = s := by
    cases s with
    | nil => rfl
    | cons a as =>
      rw [List.dropWhile_cons, if_neg]
      simp only [List.head?] at h1
      simp only [decide_eq_true_eq]
      intro hc
      exact h1 (by rw [hc])
  rw [hd]
  have hr : s.reverse.dropWhile (· = ' ') = s.reverse := by
    cases hrev : s.reverse with
    | nil => rfl
    | cons a as =>
      rw [List.dropWhile_cons, if_neg]
      have : s.getLast? = some a := by
        rw [← List.head?_reverse, hrev]
        rfl
      simp only [decide_eq_true_eq]
      intro hc
      exact h2 (by rw [this, hc])
  rw [hr, List.reverse_reverse]

/-- The squeeze pass fixes a join of non-empty space-free tokens. -/
theorem squeeze_join (T : List Str) (hT : ∀ t ∈ T, t ≠ [] ∧ ∀ c ∈ t, c ≠ ' ') :
    squeezeSpace (joinToks T) = joinToks T := by
  unfold squeezeSpace
  rw [collapse_join T hT]
  cases T with
  | nil => rw [joinToks_nil]; rfl
  | cons t ts =>
    obtain ⟨hne, hsf⟩ := hT t (List.mem_cons_self _ _)
    obtain ⟨a, t1, rfl⟩ : ∃ a t1, t = a :: t1 := by
      cases t with
      | nil => exact absurd rfl hne
      | cons a t1 => exact ⟨a, t1, rfl⟩
    refine trimEnds_fix _ ?_ (joinToks_last_ne_space _ hT)
    rw [joinToks_head _ _ hne]
    intro hc
    exact hsf a (List.mem_cons_self _ _) (Option.some.inj hc)

/-- The leading-`x` strip fixes a join whose first character is not
`x`. -/
theorem xStrip_join (T : List Str) (hT : ∀ t ∈ T, t ≠ [])
    (hx : ((T.head?).bind List.head?) ≠ some 'x') :
    xStrip (joinToks T) = joinToks T := by
  cases T with
  | nil => rfl
  | cons t ts =>
    obtain ⟨a, t1, rfl⟩ : ∃ a t1, t = a :: t1 := by
      cases t with
      | nil => exact absurd rfl (hT [] (List.mem_cons_self _ _))
      | cons a t1 => exact ⟨a, t1, rfl⟩
    have hxa : a ≠ 'x' := by
      intro h
      apply hx
      subst h
      rfl
    obtain ⟨w, hw⟩ : ∃ w, joinToks ((a :: t1) :: ts) = a :: w := by
      cases ts with
      | nil => exact ⟨t1, joinToks_single _⟩
      | cons v ts' => exact ⟨t1 ++ ' ' :: joinToks (v :: ts'), by rw [joinToks_cons]; rfl⟩
    rw [hw]
    cases w with
    | nil => rfl
    | cons c1 rest =>
      have hxe : xStrip (a :: c1 :: rest) =
          if a = 'x' ∧ (('a' ≤ c1 ∧ c1 ≤ 'z') ∨ ('0' ≤ c1 ∧ c1 ≤ '9')) then c1 :: rest
          else a :: c1 :: rest := rfl
      rw [hxe, if_neg]
      rintro ⟨h1, -⟩
      exact hxa h1

/-- The leading-article strip fixes a join of space-free tokens unless
the head token is exactly `"the"` with further tokens following. -/
theorem theStrip_join (T : List Str) (hT : ∀ t ∈ T, t ≠ [] ∧ ∀ c ∈ t, c ≠ ' ')
    (hthe : ¬ (T.head? = some (str "the") ∧ 2 ≤ T.length)) :
    theStrip (joinToks T) = joinToks T := by
  unfold theStrip
  rw [if_neg]
  intro hpre
  have hthe4 : str "the " = ['t', 'h', 'e', ' '] := rfl
  rw [hthe4] at hpre
  cases T with
  | nil =>
    rw [joinToks_nil] at hpre
    simp at hpre
  | cons t ts =>
    obtain ⟨hne, hsf⟩ := hT t (List.mem_cons_self _ _)
    rcases t with _ | ⟨a, t1⟩
    · exact absurd rfl hne
    rcases t1 with _ | ⟨b, t2⟩
    · cases ts with
      | nil =>
        rw [joinToks_single] at hpre
        have hlen := hpre.length_le
        simp at hlen
      | cons u ts' =>
        rw [joinToks_cons] at hpre
        simp only [List.cons_append, List.nil_append] at hpre
        rw [List.cons_prefix_cons] at hpre
        obtain ⟨-, hpre⟩ := hpre
        rw [List.cons_prefix_cons] at hpre
        obtain ⟨hh, -⟩ := hpre
        exact absurd hh (by decide)
    rcases t2 with _ | ⟨c, t3⟩
    · cases ts with
      | nil =>
        rw [joinToks_single] at hpre
        have hlen := hpre.length_le
        simp at hlen
      | cons u ts' =>
        rw [joinToks_cons] at hpre
        simp only [List.cons_append, List.nil_append] at hpre
        rw [List.cons_prefix_cons] at hpre
        obtain ⟨-, hpre⟩ := hpre
        rw [List.cons_prefix_cons] at hpre
        obtain ⟨-, hpre⟩ := hpre
        rw [List.cons_prefix_cons] at hpre
        obtain ⟨he, -⟩ := hpre
        exact absurd he (by decide)
    rcases t3 with _ | ⟨d, t4⟩
    · cases ts with
      | nil =>
        rw [joinToks_single] at hpre
        have hlen := hpre.length_le
        simp at hlen
      | cons u ts' =>
        rw [joinToks_cons] at hpre
        simp only [List.cons_append, List.nil_append] at hpre
        rw [List.cons_prefix_cons] at hpre
        obtain ⟨ha, hpre⟩ := hpre
        rw [List.cons_prefix_cons] at hpre
        obtain ⟨hb, hpre⟩ := hpre
        rw [List.cons_prefix_cons] at hpre
        obtain ⟨hc, -⟩ := hpre
        subst ha
        subst hb
        subst hc
        exact hthe ⟨rfl, by simp⟩
    · have hd : d ≠ ' ' := hsf d (by simp)
      cases ts with
      | nil =>
        rw [joinToks_single] at hpre
        rw [List.cons_prefix_cons] at hpre
        obtain ⟨-, hpre⟩ := hpre
        rw [List.cons_prefix_cons] at hpre
        obtain ⟨-, hpre⟩ := hpre
        rw [List.cons_prefix_cons] at hpre
        obtain ⟨-, hpre⟩ := hpre
        rw [List.cons_prefix_cons] at hpre
        obtain ⟨hsp, -⟩ := hpre
        exact hd hsp.symm
      | cons u ts' =>
        rw [joinToks_cons] at hpre
        simp only [List.cons_append] at hpre
        rw [List.cons_prefix_cons] at hpre
        obtain ⟨-, hpre⟩ := hpre
        rw [List.cons_prefix_cons] at hpre
        obtain ⟨-, hpre⟩ := hpre
        rw [List.cons_prefix_cons] at hpre
        obtain ⟨-, hpre⟩ := hpre
        rw [List.cons_prefix_cons] at hpre
        obtain ⟨hsp, -⟩ := hpre
        exact hd hsp.symm

/-- The whitespace split of a join of non-empty space-free tokens
recovers exactly the tokens. -/
theorem splitTokens_join (T : List Str) (hT : ∀ t ∈ T, t ≠ [] ∧ ∀ c ∈ t, c ≠ ' ')
    (hne : T ≠ []) : splitTokens (joinToks T) = T := by
  unfold splitTokens joinToks
  rw [List.splitOn_intercalate T ' ' (fun l hl hsp => (hT l hl).2 ' ' hsp rfl) hne]
  exact List.filter_eq_self.2 (fun t ht => by simpa using (hT t ht).1)

/-- Re-applying the Roman rewrite across a tokenisation changes
nothing. -/
theorem tokenize_map_romanFix (x : Str) : (tokenize x).map romanFix = tokenize x := by
  unfold tokenize
  rw [List.map_map]
  congr 1
  funext t
  exact romanFix_idem t

/-- C6 counterexample: normalisation is not idempotent.  `"the xmen"`
tokenises to `["xmen"]` (the article strip runs before the region-glyph
strip), but re-normalising the re-joined token `"xmen"` strips its
leading `x` and yields `["men"]`. -/
theorem c6_idem_counterexample :
    tokenize (str "the xmen") = [str "xmen"] ∧
    tokenize (joinToks (tokenize (str "the xmen"))) = [str "men"] ∧
    tokenize (joinToks (tokenize (str "the xmen"))) ≠ tokenize (str "the xmen") :=
  ⟨by decide, by decide, by decide⟩

/-- C6 (amended): tokenisation is idempotent on every input whose first
token does not begin with the letter `x` and is not exactly `"the"`
followed by further tokens; on such heads the leading-`x` strip or the
leading-article strip of the second pass removes characters and
idempotence fails. -/
theorem c6_idem_amended (x : Str)
    (hx : (((tokenize x).head?).bind List.head?) ≠ some 'x')
    (hthe : ¬ ((tokenize x).head? = some (str "the") ∧ 2 ≤ (tokenize x).length)) :
    tokenize (joinToks (tokenize x)) = tokenize x := by
  have hfacts := tokenize_token_facts x
  have hsf : ∀ t ∈ tokenize x, t ≠ [] ∧ ∀ c ∈ t, c ≠ ' ' := fun t ht =>
    ⟨(hfacts t ht).1, fun c hc => lowerAlnum_ne_space c ((hfacts t ht).2 c hc)⟩
  by_cases hT : tokenize x = []
  · rw [hT]
    decide
  · have hlc : lc (joinToks (tokenize x)) = joinToks (tokenize x) := by
      apply lc_fix
      intro c hc
      rcases joinToks_chars (tokenize x) c hc with ⟨t, ht, hct⟩ | rfl
      · exact lowerAlnum_not_upper c ((hfacts t ht).2 c hct)
      · exact space_not_upper
    have hxs : xStrip (joinToks (tokenize x)) = joinToks (tokenize x) :=
      xStrip_join _ (fun t ht => (hsf t ht).1) hx
    have hth : theStrip (joinToks (tokenize x)) = joinToks (tokenize x) :=
      theStrip_join _ hsf hthe
    have hfold : asciiFoldKeepSpace (joinToks (tokenize x)) = joinToks (tokenize x) := by
      apply fold_fix
      intro c hc
      rcases joinToks_chars (tokenize x) c hc with ⟨t, ht, hct⟩ | rfl
      · exact Or.inl ((hfacts t ht).2 c hct)
      · exact Or.inr rfl
    have hsq : squeezeSpace (joinToks (tokenize x)) = joinToks (tokenize x) :=
      squeeze_join _ hsf
    have hst : splitTokens (joinToks (tokenize x)) = tokenize x :=
      splitTokens_join _ hsf hT
    show ((splitTokens (squeezeSpace (asciiFoldKeepSpace (theStrip (xStrip
      (lc (joinToks (tokenize x)))))))).map romanFix) = tokenize x
    rw [hlc, hxs, hth, hfold, hsq, hst]
    exact tokenize_map_romanFix x

/-- C6 amended witness: `"halo 2"` satisfies the head conditions and
re-normalises to itself. -/
theorem c6_idem_amended_witness :
    ((((tokenize (str "halo 2")).head?).bind List.head? ≠ some 'x') ∧
      ¬ ((tokenize (str "halo 2")).head? = some (str "the") ∧
          2 ≤ (tokenize (str "halo 2")).length)) ∧
    tokenize (joinToks (tokenize (str "halo 2"))) = tokenize (str "halo 2") :=
  ⟨⟨by decide, by decide⟩, c6_idem_amended (str "halo 2") (by decide) (by decide)⟩

/-- The loaded-model invariant of claim C10: while a model is reported
loaded, the board cursor indexes into the boards and every installed
board has at least one row. -/
def EngInv (s : EngState) : Prop :=
  s.loaded = true →
    0 ≤ s.curBoard ∧ s.curBoard < (s.boards.length : Int) ∧
      ∀ B ∈ s.boards, B.rows ≠ []

/-- States agreeing on `loaded`, `boards` and `curBoard` share the
invariant. -/
theorem EngInv_of_fields (s s' : EngState) (h1 : s'.loaded = s.loaded)
    (h2 : s'.boards = s.boards) (h3 : s'.curBoard = s.curBoard)
    (h : EngInv s) : EngInv s' := by
  intro hld
  rw [h1] at hld
  rw [h2, h3]
  exact h hld

/-- Sorting preserves non-emptiness (it permutes the rows). -/
theorem sortRows_ne_nil (rows : List Row) (h : rows ≠ []) : sortRows rows ≠ [] := by
  intro hnil
  apply h
  have hperm := List.perm_insertionSort rowLE rows
  rw [show List.insertionSort rowLE rows = sortRows rows from rfl, hnil] at hperm
  exact List.Perm.eq_nil hperm.symm

/-- The keep-or-skip decision at the end of `buildBoard` only keeps
boards with rows. -/
theorem ifRowsAux (bname : Str) (rows : List Row) (B : Board)
    (h : (if rows = [] then none
          else some ({ name := bname, rows := sortRows rows } : Board)) = some B) :
    B.rows ≠ [] := by
  split at h
  · exact Option.noConfusion h
  · rw [Option.some_inj] at h
    rw [← h]
    exact sortRows_ne_nil _ (by assumption)

/-- Every board the loader keeps has at least one row (empty boards are
skipped, and sorting permutes the rows). -/
theorem buildBoards_rows_ne_nil (sbs : List JVal) : ∀ B ∈ buildBoards sbs, B.rows ≠ [] := by
  intro B hB
  obtain ⟨v, hv, hBv⟩ := List.mem_filterMap.1 hB
  cases v with
  | jobj sb =>
    unfold buildBoard at hBv
    repeat'
      first
      | exact Option.noConfusion hBv
      | exact ifRowsAux _ _ _ hBv
      | split at hBv
  | jnull => exact absurd hBv (by simp [buildBoard])
  | jstr a => exact absurd hBv (by simp [buildBoard])
  | jnum a => exact absurd hBv (by simp [buildBoard])
  | jbool a => exact absurd hBv (by simp [buildBoard])
  | jarr a => exact absurd hBv (by simp [buildBoard])

/-- Probing never touches the model fields. -/
theorem stepProbe_model_fields (s : EngState) (now : Nat) (net : Bool)
    (cb nb : Str → Option Str) (p : Str → Option JVal) :
    ((stepProbeWorkRoot s now net cb nb p).s).loaded = s.loaded ∧
    ((stepProbeWorkRoot s now net cb nb p).s).boards = s.boards ∧
    ((stepProbeWorkRoot s now net cb nb p).s).curBoard = s.curBoard := by
  unfold stepProbeWorkRoot startProbingIfNeeded
  repeat'
    first
    | split
    | dsimp only
  all_goals exact ⟨rfl, rfl, rfl⟩

/-- Resolution never touches the model fields. -/
theorem resolve_model_fields (s : EngState) (net : Bool)
    (idxResp : Option (List SEntry)) (rIdx : Nat) :
    ((resolveTitlePoolS s net idxResp rIdx).2).loaded = s.loaded ∧
    ((resolveTitlePoolS s net idxResp rIdx).2).boards = s.boards ∧
    ((resolveTitlePoolS s net idxResp rIdx).2).curBoard = s.curBoard := by
  unfold resolveTitlePoolS
  repeat'
    first
    | split
    | dsimp only
  all_goals exact ⟨rfl, rfl, rfl⟩

/-- A load attempt from an unloaded state re-establishes the invariant:
failures leave `loaded` false, and success installs non-empty boards
with a cursor drawn modulo their number. -/
theorem loadGameModelS_inv (s : EngState) (now rBoard : Nat)
    (fetchResp : Option Str) (parse : Str → Option JVal)
    (hload : s.loaded = false) :
    EngInv (loadGameModelS s now rBoard fetchResp parse).2 := by
  cases fetchResp with
  | none =>
    simp only [loadGameModelS]
    intro h
    rw [hload] at h
    cases h
  | some body =>
    cases hp : parse body with
    | none =>
      simp only [loadGameModelS, hp]
      intro h
      rw [hload] at h
      cases h
    | some doc =>
      simp only [loadGameModelS, hp]
      split
      · split
        · intro h
          simp [hload] at h
        · next hbs =>
          intro _
          have hlen : 0 < (buildBoards _).length := List.length_pos.2 hbs
          refine ⟨Int.natCast_nonneg _, ?_, ?_⟩
          · show ((rBoard % (buildBoards _).length : Nat) : Int) <
              ((buildBoards _).length : Int)
            exact_mod_cast Nat.mod_lt _ hlen
          · show ∀ B ∈ buildBoards _, B.rows ≠ []
            exact buildBoards_rows_ne_nil _
      · intro h
        simp [hload] at h

/-- `maybeResolveAndLoad` preserves the invariant. -/
theorem maybeResolveAndLoad_inv (s : EngState) (now : Nat) (net : Bool)
    (cb nb : Str → Option Str) (parse : Str → Option JVal)
    (idxResp : Option (List SEntry)) (rIdx : Nat)
    (byIdResp : Option Str) (rBoard : Nat) (h : EngInv s) :
    EngInv (maybeResolveAndLoad s now net cb nb parse idxResp rIdx byIdResp rBoard) := by
  unfold maybeResolveAndLoad
  split
  · exact h
  · have h' : EngInv { s with lastFetchMs := now } :=
      EngInv_of_fields s _ rfl rfl rfl h
    dsimp only
    split
    · obtain ⟨h1, h2, h3⟩ := stepProbe_model_fields { s with lastFetchMs := now } now net cb nb parse
      exact EngInv_of_fields _ _ h1 h2 h3 h'
    · split
      · obtain ⟨h1, h2, h3⟩ := resolve_model_fields { s with lastFetchMs := now } net idxResp rIdx
        exact EngInv_of_fields _ _ h1 h2 h3 h'
      · split
        · split
          · exact h'
          · next hnl _ =>
            exact loadGameModelS_inv _ now rBoard byIdResp parse
              (by revert hnl; cases ({ s with lastFetchMs := now } : EngState).loaded <;> simp)
        · exact h'

/-- The scroll/rotation core of `tick` preserves the invariant. -/
theorem tickCore_inv (s1 : EngState) (now rRot : Nat) (h1 : EngInv s1) :
    EngInv (tickCore s1 now rRot) := by
  unfold tickCore
  split
  · exact h1
  · split
    · exact h1
    · next hact _ =>
      have hld : s1.loaded = true := (not_not.mp hact).2
      have h2 : EngInv (if 40 ≤ now - s1.lastStep then
          { s1 with lastStep := now, scrollY := s1.scrollY + 1 } else s1) := by
        split
        · exact EngInv_of_fields _ _ rfl rfl rfl h1
        · exact h1
      have hld2 : (if 40 ≤ now - s1.lastStep then
          { s1 with lastStep := now, scrollY := s1.scrollY + 1 } else s1).loaded = true := by
        split
        · exact hld
        · exact hld
      dsimp only
      generalize hs2 : (if 40 ≤ now - s1.lastStep then
          { s1 with lastStep := now, scrollY := s1.scrollY + 1 } else s1) = s2
      rw [hs2] at h2 hld2
      split
      · next hrange =>
        split
        · next hrot =>
          have hlen : 0 < (s2.boards.length : Int) := lt_of_le_of_lt hrange.1 hrange.2
          have hnext : ∀ next : Int, 0 ≤ next → next < (s2.boards.length : Int) →
              EngInv { s2 with curBoard := next, scrollY := 0, lastBoardSwitch := now,
                               freezeUntilMs := now + 750 } := by
            intro next hn1 hn2 _
            exact ⟨hn1, hn2, (h2 hld2).2.2⟩
          have hb1 : (0 : Int) ≤ (if 1 < s2.boards.length then
              (((rRot % s2.boards.length : Nat) : Int)) else s2.curBoard) := by
            split
            · positivity
            · exact hrange.1
          have hb2 : (if 1 < s2.boards.length then
              (((rRot % s2.boards.length : Nat) : Int)) else s2.curBoard) <
              (s2.boards.length : Int) := by
            split
            · next hgt =>
              exact_mod_cast Nat.mod_lt _ (by omega)
            · exact hrange.2
          generalize hnx : (if 1 < s2.boards.length then
              (((rRot % s2.boards.length : Nat) : Int)) else s2.curBoard) = next0
          rw [hnx] at hb1 hb2
          have hbn1 : (0 : Int) ≤ (if 1 < s2.boards.length ∧ next0 = s2.curBoard then
              (next0 + 1) % (s2.boards.length : Int) else next0) := by
            split
            · exact Int.emod_nonneg _ (by omega)
            · exact hb1
          have hbn2 : (if 1 < s2.boards.length ∧ next0 = s2.curBoard then
              (next0 + 1) % (s2.boards.length : Int) else next0) <
              (s2.boards.length : Int) := by
            split
            · exact Int.emod_lt_of_pos _ hlen
            · exact hb2
          split
          · next hsw =>
            intro hc
            simp at hc
          · exact hnext _ hbn1 hbn2
        · exact h2
      · exact h2

/-- C10 (confirmed): whenever the engine reports a loaded model the
board cursor is a valid index and every board has at least one row:
`loadGameModel` (from the unloaded state in which the scheduler invokes
it) establishes this, and `tick` — including its board rotation and
variant switch — preserves it. -/
theorem c10_loaded_invariant :
    (∀ (s : EngState) (now rBoard : Nat) (fetchResp : Option Str)
        (parse : Str → Option JVal), s.loaded = false →
      EngInv (loadGameModelS s now rBoard fetchResp parse).2) ∧
    (∀ (s : EngState) (now : Nat) (net : Bool) (cb nb : Str → Option Str)
        (parse : Str → Option JVal) (idxResp : Option (List SEntry))
        (rIdx : Nat) (byIdResp : Option Str) (rBoard rRot : Nat), EngInv s →
      EngInv (tick s now net cb nb parse idxResp rIdx byIdResp rBoard rRot)) := by
  constructor
  · intro s now rBoard fetchResp parse hload
    exact loadGameModelS_inv s now rBoard fetchResp parse hload
  · intro s now net cb nb parse idxResp rIdx byIdResp rBoard rRot h
    unfold tick
    split
    · exact h
    · exact tickCore_inv _ now rRot
        (maybeResolveAndLoad_inv s now net cb nb parse idxResp rIdx byIdResp rBoard h)

/-- C10 witness: the invariant holds through a tick of the default
state. -/
theorem c10_loaded_invariant_witness :
    EngInv ({} : EngState) ∧
    EngInv (tick {} 0 false (fun _ => none) (fun _ => none) (fun _ => none)
      none 0 none 0 0) :=
  ⟨fun h => absurd h (by decide),
    c10_loaded_invariant.2 {} 0 false (fun _ => none) (fun _ => none) (fun _ => none)
      none 0 none 0 0 (fun h => absurd h (by decide))⟩

end Insignia
